import Mathlib

/-
Verification of the SSA transformation pass (miasm2/analysis/ssa.py).

The development shallowly embeds the classes SSA, SSABlock, SSAPath and
SSADiGraph.  Expressions, assign blocks and IR blocks are embedded as
inductive values; the mutable Python state (version stacks, the block
cache, the expressions table, the phi-node table) is threaded explicitly
as a state record.  Machine integers do not occur: version counters are
plain natural numbers in the source as well.

External collaborators of the pass (the expression algebra of
miasm2/expression/expression.py, ExprDissector of
miasm2/expression/expression_helper.py, AssignBlock of miasm2/ir/ir.py,
and the graph services of miasm2/core/graph.py) are part of the
repository but not of the analysed sources; they are modelled from the
specification where noted.
-/

/-- Name of an identifier.  The source names SSA variables by the tuple
(name, index), where name may itself already be such a tuple, so the
name space is recursive. -/
inductive IdName where
  | base (s : String)
  | ssa (n : IdName) (idx : Nat)
deriving DecidableEq, Repr

/-- Modelled from the spec: the expression algebra (section 3 DATA MODEL)
with variants Identifier, Constant, Memory and Operator.  Expressions
are immutable trees with structural equality. -/
inductive Expr where
  | id (name : IdName) (size : Nat)
  | int (val : Nat) (size : Nat)
  | mem (addr : Expr) (size : Nat)
  | op (symbol : String) (args : List Expr)
deriving Repr

mutual

/-- Boolean structural equality of expressions. -/
def Expr.beq : Expr → Expr → Bool
  | .id n s, .id n2 s2 => n = n2 && s = s2
  | .int v s, .int v2 s2 => v = v2 && s = s2
  | .mem a s, .mem a2 s2 => Expr.beq a a2 && s = s2
  | .op sy as, .op sy2 as2 => sy = sy2 && Expr.beqList as as2
  | _, _ => false

/-- Boolean structural equality of expression lists. -/
def Expr.beqList : List Expr → List Expr → Bool
  | [], [] => true
  | a :: as, b :: bs => Expr.beq a b && Expr.beqList as bs
  | _, _ => false

end

mutual

theorem Expr.beq_iff : ∀ a b : Expr, Expr.beq a b = true ↔ a = b
  | .id _ _, b => by cases b <;> simp [Expr.beq]
  | .int _ _, b => by cases b <;> simp [Expr.beq]
  | .mem a _, b => by cases b <;> simp [Expr.beq, Expr.beq_iff a]
  | .op _ as, b => by cases b <;> simp [Expr.beq, Expr.beqList_iff as]

theorem Expr.beqList_iff : ∀ as bs : List Expr, Expr.beqList as bs = true ↔ as = bs
  | [], bs => by cases bs <;> simp [Expr.beqList]
  | a :: as, bs => by
    cases bs <;> simp [Expr.beqList, Expr.beq_iff a, Expr.beqList_iff as]

end

instance : DecidableEq Expr := fun a b => decidable_of_iff _ (Expr.beq_iff a b)

/-- Size accessor of an expression (the size attribute of the source). -/
def Expr.sizeE : Expr → Nat
  | .id _ s => s
  | .int _ s => s
  | .mem _ s => s
  | .op _ _ => 0

/-- Test for a memory expression (isinstance(dst, ExprMem)). -/
def Expr.isMem : Expr → Bool
  | .mem _ _ => true
  | _ => false

/-- Test for an identifier expression (isinstance(dst, ExprId)). -/
def Expr.isId : Expr → Bool
  | .id _ _ => true
  | _ => false

/-- Insertion that keeps set semantics on a list: the element is appended
only when absent.  This models addition to a Python set, with the
iteration order of the model fixed to insertion order. -/
def setAdd [DecidableEq α] (l : List α) (a : α) : List α :=
  if a ∈ l then l else l ++ [a]

mutual

/-- Collection of the identifier leaves of an expression in
left-to-right order, possibly with duplicates. -/
def Expr.idLeavesRaw : Expr → List Expr
  | .id n s => [.id n s]
  | .int _ _ => []
  | .mem a _ => a.idLeavesRaw
  | .op _ args => Expr.idLeavesRawList args

/-- Collection of identifier leaves of a list of expressions. -/
def Expr.idLeavesRawList : List Expr → List Expr
  | [] => []
  | a :: as => a.idLeavesRaw ++ Expr.idLeavesRawList as

end

/-- Distinct identifier leaves of an expression in first-occurrence
order.  Modelled from the spec: ExprWalker enumerates the identifier
leaves inside an expression tree (sections 2 and 6); it stands for both
the variables and the id methods of ExprDissector, which are not among
the analysed sources, with the arbitrary Python set iteration order
fixed to first-occurrence order. -/
def Expr.idLeaves (e : Expr) : List Expr :=
  e.idLeavesRaw.foldl setAdd []

mutual

/-- Replacement of every occurrence of a pattern subexpression by a
replacement, rebuilding children first.  Modelled from the spec: the
replace leaves operation of the expression algebra (section 6), extended
to whole subexpression patterns because reassemble applies it to memory
keys of the expressions table as well. -/
def Expr.replaceE (pat repl : Expr) : Expr → Expr
  | .id n s => if Expr.id n s = pat then repl else .id n s
  | .int v s => if Expr.int v s = pat then repl else .int v s
  | .mem a s =>
    let e := Expr.mem (Expr.replaceE pat repl a) s
    if e = pat then repl else e
  | .op sy args =>
    let e := Expr.op sy (Expr.replaceEList pat repl args)
    if e = pat then repl else e

/-- Replacement inside a list of expressions. -/
def Expr.replaceEList (pat repl : Expr) : List Expr → List Expr
  | [] => []
  | a :: as => Expr.replaceE pat repl a :: Expr.replaceEList pat repl as

end

/-- Lookup in an association list, first match.  Updates keep keys
unique, so this models a Python dict lookup. -/
def alistGet [DecidableEq α] (m : List (α × β)) (k : α) : Option β :=
  match m with
  | [] => none
  | p :: rest => if p.1 = k then some p.2 else alistGet rest k

/-- Update of an association list: the value of an existing key is
replaced in place, a new key is appended.  This models a Python dict
assignment, which keeps insertion order. -/
def alistSet [DecidableEq α] (m : List (α × β)) (k : α) (v : β) : List (α × β) :=
  match m with
  | [] => [(k, v)]
  | p :: rest => if p.1 = k then (k, v) :: rest else p :: alistSet rest k v

/-- Removal of a key from an association list (Python dict.pop). -/
def alistRemove [DecidableEq α] (m : List (α × β)) (k : α) : List (α × β) :=
  match m with
  | [] => []
  | p :: rest => if p.1 = k then rest else p :: alistRemove rest k

/-- Keys of an association list. -/
def alistKeys (m : List (α × β)) : List α := m.map Prod.fst

/-- AssignBlock: an ordered mapping from destinations to sources,
evaluated in parallel.  Modelled from the spec (section 3): ordered
keyed insertion is preserved, so the embedding is a list of pairs. -/
abbrev AssignBlk : Type := List (Expr × Expr)

/-- IrBlock: the ordered sequence of AssignBlocks of one IR block (the
irs attribute of the source blocks). -/
abbrev IRBlock : Type := List AssignBlk

/-- Version stacks: a map from a variable expression to its current
counter, as in the source dicts stack_rhs and stack_lhs. -/
abbrev VarMap : Type := List (Expr × Nat)

/-- State of the SSA driver object: the original blocks read by
ira.copy_block, the cache of cloned blocks, both version stacks, the
expressions table, the variable definition map and the phi-node table.
The fields mirror the attributes of the SSA and SSADiGraph classes. -/
structure SSASt where
  orig : Nat → IRBlock
  blocks : List (Nat × IRBlock)
  stackRhs : VarMap
  stackLhs : VarMap
  expressions : List (Expr × Expr)
  defs : List (Expr × List Nat)
  phinodes : List (Nat × List (Expr × Expr))

/-- Embedding of SSA._gen_var_expr: builds the versioned variable
ExprId((v.name, index), v.size) from the index read off the stack. -/
def genVarExpr (v : Expr) (index : Nat) : Expr :=
  match v with
  | .id n s => .id (.ssa n index) s
  | e => e

/-- Embedding of SSA.reverse_variable: strips one version layer from a
variable name. -/
def reverseVariable (v : Expr) : Expr :=
  match v with
  | .id (.ssa n _) s => .id n s
  | e => e

/-- Embedding of SSA._transform_var_rhs: a variable that was never on a
LHS is returned unchanged, otherwise it gets the version stored in
stack_rhs. -/
def transformVarRhs (st : SSASt) (v : Expr) : Expr :=
  match alistGet st.stackRhs v with
  | none => v
  | some index => genVarExpr v index

/-- Embedding of SSA._transform_var_lhs: enters the variable into
stack_lhs with counter 0 when absent, copies the counter to stack_rhs,
and produces the versioned variable from stack_lhs. -/
def transformVarLhs (st : SSASt) (v : Expr) : Expr × SSASt :=
  let st1 :=
    if (alistGet st.stackLhs v).isSome then st
    else { st with stackLhs := alistSet st.stackLhs v 0 }
  let index := (alistGet st1.stackLhs v).getD 0
  let st2 := { st1 with stackRhs := alistSet st1.stackRhs v index }
  (genVarExpr v index, st2)

/-- Embedding of SSA._transform_expression_rhs: every identifier leaf of
the source expression is replaced by its stack_rhs version. -/
def transformExpressionRhs (st : SSASt) (src : Expr) : Expr :=
  (src.idLeaves).foldl (fun acc v => Expr.replaceE v (transformVarRhs st v) acc) src

/-- Embedding of SSA._transform_expression_lhs: a memory destination is
renamed with the current RHS view, an identifier destination is given a
fresh version and the stack_lhs counter is incremented. -/
def transformExpressionLhs (st : SSASt) (dst : Expr) : Expr × SSASt :=
  match dst with
  | .mem a s => (transformExpressionRhs st (.mem a s), st)
  | d =>
    let (e, st1) := transformVarLhs st d
    let k := (alistGet st1.stackLhs d).getD 0
    (e, { st1 with stackLhs := alistSet st1.stackLhs d (k + 1) })

/-- Embedding of SSA._parallel_instructions: the assignments of an
AssignBlock are listed with every memory destination inserted at the
start of the list and every other destination appended at the end. -/
def parallelInstructions (assignblk : AssignBlk) : AssignBlk :=
  assignblk.foldl
    (fun instructions aff =>
      if aff.1.isMem then aff :: instructions else instructions ++ [aff])
    []

/-- LHS phase of SSA._rename_expressions for one AssignBlock: walks the
reordered instruction list in step with the queue of transformed RHS
expressions, transforms each destination, and records the pair in the
expressions table and in the output AssignBlock. -/
def renameLhsPhase (st : SSASt) : AssignBlk → List Expr → AssignBlk × SSASt
  | [], _ => ([], st)
  | _ :: _, [] => ([], st)
  | aff :: rest, srcSsa :: rhsRest =>
    let (dstSsa, st1) := transformExpressionLhs st aff.1
    let st2 := { st1 with expressions := alistSet st1.expressions dstSsa srcSsa }
    let (out, st3) := renameLhsPhase st2 rest rhsRest
    ((dstSsa, srcSsa) :: out, st3)

/-- Transformation of one AssignBlock into SSA: the body of the loop of
SSA._rename_expressions.  All RHS expressions are transformed against
the unchanged incoming state, then all LHS destinations are transformed
in the same order. -/
def renameAssignBlk (st : SSASt) (assignblk : AssignBlk) : AssignBlk × SSASt :=
  let instructions := parallelInstructions assignblk
  let rhs := instructions.map (fun aff => transformExpressionRhs st aff.2)
  renameLhsPhase st instructions rhs

/-- Embedding of SSA._copy_block: reads the block from the original IRA
and enters the clone into the block cache. -/
def copyBlock (st : SSASt) (label : Nat) : IRBlock × SSASt :=
  let ib := st.orig label
  (ib, { st with blocks := alistSet st.blocks label ib })

/-- Embedding of SSA.get_block: returns the cached clone of a block,
cloning it on first access. -/
def getBlock (st : SSASt) (label : Nat) : IRBlock × SSASt :=
  match alistGet st.blocks label with
  | some ib => (ib, st)
  | none => copyBlock st label

/-- Fold of renameAssignBlk over the AssignBlocks of a block. -/
def renameIrs (st : SSASt) : IRBlock → IRBlock × SSASt
  | [] => ([], st)
  | assignblk :: rest =>
    let (abSsa, st1) := renameAssignBlk st assignblk
    let (out, st2) := renameIrs st1 rest
    (abSsa :: out, st2)

/-- Embedding of SSA._rename_expressions: fetches the block through the
clone cache, renames every AssignBlock in order, and writes the renamed
sequence back into the cached block. -/
def renameExpressions (st : SSASt) (label : Nat) : SSASt :=
  let (ib, st1) := getBlock st label
  let (irsSsa, st2) := renameIrs st1 ib
  { st2 with blocks := alistSet st2.blocks label irsSsa }

/-- Embedding of SSABlock.transform. -/
def ssaBlockTransform (st : SSASt) (label : Nat) : SSASt :=
  renameExpressions st label

/-- Embedding of SSAPath.transform. -/
def ssaPathTransform (st : SSASt) (path : List Nat) : SSASt :=
  path.foldl renameExpressions st

/-- Result of reassemble: a value, a KeyError raised by the dict lookup,
or exhaustion of the fuel bounding the embedded while loop. -/
inductive RResult where
  | ok (e : Expr)
  | keyError
  | outOfFuel
deriving DecidableEq, Repr

/-- Worklist loop of SSABlock.reassemble_expr.  The Python worklist is a
set: pop is modelled as taking the front element and add as appending
an element not already present.  The loop has no visited set, so a key
may be pushed again after having been popped; fuel bounds the number of
iterations of the embedding. -/
def reassembleLoop (tbl : List (Expr × Expr)) : Nat → List Expr → Expr → RResult
  | _, [], expr => .ok expr
  | 0, _ :: _, _ => .outOfFuel
  | fuel + 1, cur :: todoRest, expr =>
    match alistGet tbl cur with
    | none => .keyError
    | some curRhs =>
      let expr1 := Expr.replaceE cur curRhs expr
      let todo1 :=
        (curRhs.idLeaves).foldl
          (fun td idRhs => if (alistGet tbl idRhs).isSome then setAdd td idRhs else td)
          todoRest
      reassembleLoop tbl fuel todo1 expr1

/-- Embedding of SSABlock.reassemble_expr: the worklist starts as the
singleton holding a copy of the input expression. -/
def reassembleExpr (tbl : List (Expr × Expr)) (fuel : Nat) (expr : Expr) : RResult :=
  reassembleLoop tbl fuel [expr] expr

/-- Variant of the reassemble loop that also records the sequence of
keys popped from the worklist, in order; the loop logic is identical to
reassembleLoop. -/
def reassembleTrace (tbl : List (Expr × Expr)) : Nat → List Expr → Expr → List Expr
  | _, [], _ => []
  | 0, _ :: _, _ => []
  | fuel + 1, cur :: todoRest, expr =>
    match alistGet tbl cur with
    | none => [cur]
    | some curRhs =>
      let expr1 := Expr.replaceE cur curRhs expr
      let todo1 :=
        (curRhs.idLeaves).foldl
          (fun td idRhs => if (alistGet tbl idRhs).isSome then setAdd td idRhs else td)
          todoRest
      cur :: reassembleTrace tbl fuel todo1 expr1

/-- Directed graph given by its nodes and edges, standing for the IRA
control flow graph consumed by SSADiGraph. -/
structure DiGraph where
  nodes : List Nat
  edges : List (Nat × Nat)

/-- Successor list of a node (successors_iter of the graph service). -/
def DiGraph.succs (g : DiGraph) (n : Nat) : List Nat :=
  (g.edges.filter (fun e => e.1 == n)).map Prod.snd

/-- Predecessor list of a node. -/
def DiGraph.preds (g : DiGraph) (n : Nat) : List Nat :=
  (g.edges.filter (fun e => e.2 == n)).map Prod.fst

/-- Number of in-edges of a node in the graph. -/
def DiGraph.indeg (g : DiGraph) (n : Nat) : Nat :=
  (g.edges.filter (fun e => e.2 == n)).length

/-- Fuel-bounded depth-first walk over a stack of pending nodes,
returning the visit order. -/
def dfsF (g : DiGraph) : Nat → List Nat → List Nat → List Nat
  | _, [], _ => []
  | 0, _ :: _, _ => []
  | fuel + 1, n :: rest, visited =>
    if n ∈ visited then dfsF g fuel rest visited
    else n :: dfsF g fuel (g.succs n ++ rest) (n :: visited)

/-- Modelled from the spec: walk_depth_first_forward of the graph
service (section 6), a depth-first preorder walk from the head visiting
exactly the reachable nodes.  The fuel covers one iteration per stack
push, bounded by the edge count plus the initial element plus repeats. -/
def walkDFF (g : DiGraph) (head : Nat) : List Nat :=
  dfsF g (2 * g.edges.length + 2) [head] []

/-- Graph with one node and its incident edges removed, used to test
reachability around a node. -/
def DiGraph.deleteNode (g : DiGraph) (a : Nat) : DiGraph :=
  ⟨g.nodes.filter (fun n => n != a),
   g.edges.filter (fun e => e.1 != a && e.2 != a)⟩

/-- Modelled from the spec: domination.  A node a dominates a reachable
node b when b is the node a itself or every path from the head to b
passes through a, decided as unreachability of b once a is removed. -/
def domB (g : DiGraph) (head a b : Nat) : Bool :=
  (walkDFF g head).contains b &&
    (a == b || !((walkDFF (g.deleteNode a) head).contains b))

/-- Strict domination. -/
def sdomB (g : DiGraph) (head a b : Nat) : Bool :=
  a != b && domB g head a b

/-- Modelled from the spec (glossary): the dominance frontier of b is
the set of nodes that are not strictly dominated by b but have a
predecessor dominated by b. -/
def frontierOf (g : DiGraph) (head b : Nat) : List Nat :=
  (walkDFF g head).filter
    (fun n => (g.preds n).any (fun p => domB g head b p) && !(sdomB g head b n))

/-- Modelled from the spec: compute_dominance_frontier of the graph
service (section 6), as a map over the reachable nodes. -/
def computeDF (g : DiGraph) (head : Nat) : List (Nat × List Nat) :=
  (walkDFF g head).map (fun b => (b, frontierOf g head b))

/-- Rose tree of block labels, standing for the dominator tree returned
by compute_dominator_tree. -/
inductive DomTree where
  | node (label : Nat) (children : List DomTree)

/-- Root label of a dominator tree. -/
def DomTree.rootL : DomTree → Nat
  | .node l _ => l

mutual

/-- Depth-first preorder of a dominator tree: the walk order of
walk_depth_first_forward on the tree. -/
def DomTree.preorder : DomTree → List Nat
  | .node l ts => l :: DomTree.preorderF ts

/-- Preorder of a forest. -/
def DomTree.preorderF : List DomTree → List Nat
  | [] => []
  | t :: ts => t.preorder ++ DomTree.preorderF ts

end

mutual

/-- Child labels of a given label inside a tree (successors_iter of the
dominator tree), first match. -/
def DomTree.findChildren : DomTree → Nat → List Nat
  | .node l ts, n =>
    if n = l then ts.map DomTree.rootL else DomTree.findChildrenF ts n

/-- Child lookup in a forest. -/
def DomTree.findChildrenF : List DomTree → Nat → List Nat
  | [], _ => []
  | t :: ts, n =>
    match DomTree.findChildren t n with
    | [] => DomTree.findChildrenF ts n
    | r => r

end

mutual

/-- Agreement of a child function with a tree: at every node of the
tree the function returns exactly the labels of the children. -/
def DomTree.agrees (ch : Nat → List Nat) : DomTree → Bool
  | .node l ts => (ch l == ts.map DomTree.rootL) && DomTree.agreesF ch ts

/-- Agreement over a forest. -/
def DomTree.agreesF (ch : Nat → List Nat) : List DomTree → Bool
  | [] => true
  | t :: ts => DomTree.agrees ch t && DomTree.agreesF ch ts

end

mutual

/-- Parent-child edge test inside a tree. -/
def DomTree.hasEdge : DomTree → Nat → Nat → Bool
  | .node l ts, p, c =>
    (decide (l = p) && decide (c ∈ ts.map DomTree.rootL)) || DomTree.hasEdgeF ts p c

/-- Edge test over a forest. -/
def DomTree.hasEdgeF : List DomTree → Nat → Nat → Bool
  | [], _, _ => false
  | t :: ts, p, c => DomTree.hasEdge t p c || DomTree.hasEdgeF ts p c

end

mutual

/-- Collection of the parent-child edges of a tree. -/
def DomTree.treeEdges : DomTree → List (Nat × Nat)
  | .node l ts => ts.map (fun t => (l, t.rootL)) ++ DomTree.treeEdgesF ts

/-- Edge collection over a forest. -/
def DomTree.treeEdgesF : List DomTree → List (Nat × Nat)
  | [] => []
  | t :: ts => t.treeEdges ++ DomTree.treeEdgesF ts

end

/-- Immediate domination: p strictly dominates c and every other strict
dominator of c dominates p. -/
def isIdomB (g : DiGraph) (head p c : Nat) : Bool :=
  sdomB g head p c &&
    (walkDFF g head).all (fun d => !(sdomB g head d c) || domB g head d p)

/-- Modelled from the spec: a checker that a tree is the dominator tree
of a graph from a head (compute_dominator_tree of section 6): the root
is the head, the labels are exactly the reachable nodes, and every tree
edge joins a node to a child it immediately dominates. -/
def isDomTreeB (g : DiGraph) (head : Nat) (t : DomTree) : Bool :=
  t.rootL == head &&
    decide (t.preorder.Nodup) &&
    t.preorder.length == (walkDFF g head).length &&
    t.preorder.all (fun n => (walkDFF g head).contains n) &&
    t.treeEdges.all (fun e => isIdomB g head e.1 e.2)

/-- Embedding of SSADiGraph._gen_empty_phi: the placeholder is the
identifier named phi of the width of the variable.  The source routes
it through a per-size cache and an ExprAff whose src field is read back;
both are value-neutral. -/
def genEmptyPhi (v : Expr) : Expr :=
  .id (.base "phi") v.sizeE

/-- Embedding of SSADiGraph._fill_phi. -/
def fillPhi (args : List Expr) : Expr :=
  .op "phi" args

/-- Entry of a phi for a variable at a node, modelling
phinodes.setdefault(node, dict())[variable] = rhs. -/
def phiInstall (phis : List (Nat × List (Expr × Expr))) (n : Nat) (v rhs : Expr) :
    List (Nat × List (Expr × Expr)) :=
  match alistGet phis n with
  | none => alistSet phis n [(v, rhs)]
  | some entries => alistSet phis n (alistSet entries v rhs)

/-- Worklist state of SSADiGraph._place_phi for one variable. -/
structure PSt where
  todo : List Nat
  done : List Nat
  intodo : List Nat
  phis : List (Nat × List (Expr × Expr))

/-- Install of an empty phi for the variable at a frontier block, and
marking of the block as done. -/
def placeInstall (v : Expr) (n : Nat) (st : PSt) : PSt :=
  { st with phis := phiInstall st.phis n v (genEmptyPhi v), done := st.done ++ [n] }

/-- Enqueue of a block seen for the first time. -/
def placeEnqueue (n : Nat) (st : PSt) : PSt :=
  if n ∈ st.intodo then st
  else { st with intodo := st.intodo ++ [n], todo := st.todo ++ [n] }

/-- Inner loop of the placement: walk the dominance frontier of a
popped block, install an empty phi at every block not yet done, and
enqueue blocks seen for the first time. -/
def placeFrontier (v : Expr) : List Nat → PSt → PSt
  | [], st => st
  | n :: rest, st =>
    if n ∈ st.done then placeFrontier v rest st
    else placeFrontier v rest (placeEnqueue n (placeInstall v n st))

/-- Outer worklist loop of SSADiGraph._place_phi for one variable: pop
a block and process its dominance frontier.  The Python set pop is
modelled as taking the front element; fuel bounds the iterations. -/
def placeLoop (DF : Nat → List Nat) (v : Expr) : Nat → PSt → PSt
  | 0, st => st
  | fuel + 1, st =>
    match st.todo with
    | [] => st
    | b :: rest => placeLoop DF v fuel (placeFrontier v (DF b) { st with todo := rest })

/-- Placement for one variable: todo and intodo start as the definition
blocks of the variable, done starts empty. -/
def placePhiVar (DF : Nat → List Nat) (fuel : Nat) (defsV : List Nat)
    (phis : List (Nat × List (Expr × Expr))) (v : Expr) : List (Nat × List (Expr × Expr)) :=
  (placeLoop DF v fuel ⟨defsV, [], defsV, phis⟩).phis

/-- Embedding of SSADiGraph._place_phi: run the per-variable worklist
for every variable of the defs map in order. -/
def placePhi (DF : Nat → List Nat) (fuel : Nat) (st : SSASt) : SSASt :=
  { st with
    phinodes := st.defs.foldl (fun phis d => placePhiVar DF fuel d.2 phis d.1) st.phinodes }

/-- Recording of one destination of a block in the defs map: only
identifier destinations are recorded and the instruction pointer
identifiers are skipped (the body of the loop of
SSADiGraph._init_variable_defs). -/
def initDefsOne (ip : List Expr) (label : Nat) (st : SSASt) (dst : Expr) : SSASt :=
  if dst.isId then
    if dst ∈ ip then st
    else { st with
      defs := alistSet st.defs dst (setAdd ((alistGet st.defs dst).getD []) label) }
  else st

/-- Recording of all destinations of one block in the defs map. -/
def initDefsBlock (ip : List Expr) (st : SSASt) (label : Nat) : SSASt :=
  let (ib, st1) := getBlock st label
  let dsts := ib.foldl (fun acc ab => acc ++ alistKeys ab) []
  dsts.foldl (initDefsOne ip label) st1

/-- Embedding of SSADiGraph._init_variable_defs: walk the given block
order, collect every identifier destination of every AssignBlock, skip
the instruction pointer identifiers, and record the defining block
labels as a set per variable. -/
def initVariableDefs (ip : List Expr) (walk : List Nat) (st : SSASt) : SSASt :=
  walk.foldl (initDefsBlock ip) st

/-- Renaming of one phi key of a block: the key is removed and the
renamed key is appended with the unchanged payload (the body of the
loop of SSADiGraph._rename_phi_lhs). -/
def renamePhiLhsOne (label : Nat) (st : SSASt) (dst : Expr) : SSASt :=
  let cur := (alistGet st.phinodes label).getD []
  match alistGet cur dst with
  | none => st
  | some rhs =>
    let p := transformExpressionLhs st dst
    { p.2 with
      phinodes := alistSet p.2.phinodes label (alistSet (alistRemove cur dst) p.1 rhs) }

/-- Embedding of SSADiGraph._rename_phi_lhs: every phi key of the block
is renamed in place through the LHS transformation. -/
def renamePhiLhs (st : SSASt) (label : Nat) : SSASt :=
  let tmp := alistKeys ((alistGet st.phinodes label).getD [])
  tmp.foldl (renamePhiLhsOne label) st

/-- New payload of one phi of the successor (the body of the loop of
SSADiGraph._rename_phi_rhs): the current reaching version of the base
variable is prepended to the operand list; an empty phi becomes a
one-operand phi.  The last match arm stands for the attribute error the
source would raise on a payload that is neither the empty marker nor an
operator. -/
def phiBump (st : SSASt) (dst src : Expr) : Expr :=
  match src with
  | .id (.base "phi") _ => fillPhi [transformExpressionRhs st (reverseVariable dst)]
  | .op _ args => fillPhi (transformExpressionRhs st (reverseVariable dst) :: args)
  | _ => fillPhi [transformExpressionRhs st (reverseVariable dst)]

/-- Update of one phi entry of the successor with the prepended
reaching version. -/
def renamePhiRhsOne (successor : Nat) (st : SSASt) (dst : Expr) : SSASt :=
  let entries := (alistGet st.phinodes successor).getD []
  match alistGet entries dst with
  | none => st
  | some src =>
    { st with
      phinodes := alistSet st.phinodes successor (alistSet entries dst (phiBump st dst src)) }

/-- Embedding of SSADiGraph._rename_phi_rhs over all phi keys of the
successor. -/
def renamePhiRhs (st : SSASt) (successor : Nat) : SSASt :=
  let dsts := alistKeys ((alistGet st.phinodes successor).getD [])
  dsts.foldl (renamePhiRhsOne successor) st

/-- Body of the dominator-tree walk of SSADiGraph._rename for one
block: rename the phi keys, rename the block body, then update the phi
operands of every CFG successor. -/
def renameBlockStep (g : DiGraph) (st : SSASt) (b : Nat) : SSASt :=
  let st1 := renamePhiLhs st b
  let st2 := renameExpressions st1 b
  (g.succs b).foldl renamePhiRhs st2

/-- Iterative loop of SSADiGraph._rename: for each walked block pop a
stack_rhs snapshot from the scope stack, process the block, and push
one copy of the resulting stack_rhs per dominator-tree child.  The
returned trace records, per block, the popped snapshot and the
stack_rhs at the end of the processing of the block; a pop from an
empty stack would raise in the source and stops the embedding. -/
def renameLoop (g : DiGraph) (ch : Nat → List Nat) :
    List Nat → List VarMap → SSASt → SSASt × List VarMap × List (Nat × VarMap × VarMap)
  | [], stack, st => (st, stack, [])
  | b :: rest, stack, st =>
    match stack with
    | [] => (st, [], [])
    | top :: stackRest =>
      let st2 := renameBlockStep g { st with stackRhs := top } b
      let stack1 := (ch b).foldl (fun s _ => st2.stackRhs :: s) stackRest
      let r := renameLoop g ch rest stack1 st2
      (r.1, r.2.1, (b, top, st2.stackRhs) :: r.2.2)

/-- Embedding of SSADiGraph._rename: walk the dominator tree in
depth-first preorder with the scope stack seeded with one snapshot of
the current stack_rhs. -/
def renameAll (g : DiGraph) (t : DomTree) (st : SSASt) : SSASt :=
  (renameLoop g t.findChildren t.preorder [st.stackRhs] st).1

/-- Embedding of SSADiGraph._insert_phi: record every phi assignment in
the expressions table. -/
def insertPhi (st : SSASt) : SSASt :=
  { st with
    expressions :=
      st.phinodes.foldl (fun ex bl => bl.2.foldl (fun ex p => alistSet ex p.1 p.2) ex)
        st.expressions }

/-- Materialization of the phis of one block (the body of the loop of
SSADiGraph._convert_phi): one AssignBlock is built from the phi
assignments and inserted at the front of the cached block. -/
def convertPhiOne (st : SSASt) (bl : Nat × List (Expr × Expr)) : SSASt :=
  let p := getBlock st bl.1
  let assignblk : AssignBlk := bl.2.foldl (fun ab q => alistSet ab q.1 q.2) []
  { p.2 with blocks := alistSet p.2.blocks bl.1 (assignblk :: p.1) }

/-- Embedding of SSADiGraph._convert_phi over all blocks with phis. -/
def convertPhi (st : SSASt) : SSASt :=
  st.phinodes.foldl convertPhiOne st

/-- Embedding of SSADiGraph.transform, with the dominator tree, the
walk orders and the dominance frontier supplied by the modelled graph
services. -/
def ssaDigraphTransform (g : DiGraph) (head : Nat) (ip : List Expr) (t : DomTree)
    (fuel : Nat) (st : SSASt) : SSASt :=
  let st1 := initVariableDefs ip (walkDFF g head) st
  let df := fun b => (alistGet (computeDF g head) b).getD []
  let st2 := placePhi df fuel st1
  let st3 := renameAll g t st2
  let st4 := insertPhi st3
  convertPhi st4

/-- Membership in the iterated dominance frontier of a set of blocks:
the closure of the dominance frontier map over the starting set. -/
inductive InIDF (DF : Nat → List Nat) (S : List Nat) : Nat → Prop where
  | base {b n : Nat} : b ∈ S → n ∈ DF b → InIDF DF S n
  | step {b n : Nat} : InIDF DF S b → n ∈ DF b → InIDF DF S n

/-- Operand count of a phi payload: the empty marker has no operands. -/
def opCount : Expr → Nat
  | .op _ args => args.length
  | _ => 0

/-- Lookup of the phi payload of a variable at a block. -/
def phiGet (phis : List (Nat × List (Expr × Expr))) (n : Nat) (v : Expr) : Option Expr :=
  match alistGet phis n with
  | none => none
  | some entries => alistGet entries v

/-- Frontier map read as in the source: frontier.get(block_label, []). -/
def dfFun (df : List (Nat × List Nat)) (b : Nat) : List Nat :=
  (alistGet df b).getD []

mutual

/-- Recursive specification of the dominator-tree walk: the root of a
subtree is processed with a given incoming stack_rhs snapshot, and each
child subtree is processed with the stack_rhs the parent had at the end
of its own processing, threading the rest of the state left to right.
The returned trace records, per block, the incoming snapshot and the
stack_rhs at the end of the processing of the block. -/
def processTree (g : DiGraph) : DomTree → VarMap → SSASt → SSASt × List (Nat × VarMap × VarMap)
  | .node b ts, vIn, st =>
    let st2 := renameBlockStep g { st with stackRhs := vIn } b
    let r := processForest g ts st2.stackRhs st2
    (r.1, (b, vIn, st2.stackRhs) :: r.2)

/-- Recursive walk specification over a forest of sibling subtrees. -/
def processForest (g : DiGraph) : List DomTree → VarMap → SSASt → SSASt × List (Nat × VarMap × VarMap)
  | [], _, st => (st, [])
  | t :: ts, vP, st =>
    let r1 := processTree g t vP st
    let r2 := processForest g ts vP r1.1
    (r2.1, r1.2 ++ r2.2)

end

/-- Empty driver state over a given set of original blocks. -/
def initSt (orig : Nat → IRBlock) : SSASt :=
  ⟨orig, [], [], [], [], [], []⟩

/-- Example variable x of width 32. -/
def xV : Expr := .id (.base "x") 32

/-- Example variable y of width 32. -/
def yV : Expr := .id (.base "y") 32

/-- IRDst, the next-PC destination identifier of the IR. -/
def irdstV : Expr := .id (.base "IRDst") 32

/-- Versioned variable a.0 used by the reassemble examples. -/
def aS : Expr := .id (.ssa (.base "a") 0) 32

/-- Versioned variable b.0 used by the reassemble examples. -/
def bS : Expr := .id (.ssa (.base "b") 0) 32

/-- Cyclic expressions table of the kind phi placement produces: a.0
maps to phi(b.0) and b.0 maps back to phi(a.0). -/
def cycTbl : List (Expr × Expr) := [(aS, fillPhi [bS]), (bS, fillPhi [aS])]

/-- One-entry acyclic expressions table mapping a.0 to the constant 1. -/
def oneTbl : List (Expr × Expr) := [(aS, .int 1 32)]

/-- Example CFG: diamond 0 to 1 and 2, both to 3, plus a block 4 that
is unreachable from the head 0 but has an edge into the join 3. -/
def gEx : DiGraph := ⟨[0, 1, 2, 3, 4], [(0, 1), (0, 2), (1, 3), (2, 3), (4, 3)]⟩

/-- Original blocks of the example CFG: the head defines x, block 1
redefines x, the other blocks are empty. -/
def blocksEx : Nat → IRBlock := fun n =>
  if n = 0 then [[(xV, .int 1 32)]]
  else if n = 1 then [[(xV, .int 2 32)]]
  else []

/-- Dominator tree of the example CFG from head 0: the head immediately
dominates the reachable blocks 1, 2 and 3. -/
def tEx : DomTree := .node 0 [.node 1 [], .node 2 [], .node 3 []]

/-- Fully reachable diamond CFG used as witness input. -/
def gDia : DiGraph := ⟨[0, 1, 2, 3], [(0, 1), (0, 2), (1, 3), (2, 3)]⟩

/-- Dominator tree of the diamond from head 0. -/
def tDia : DomTree := .node 0 [.node 1 [], .node 2 [], .node 3 []]

/-- Invariant of the per-variable phi placement worklist, relative to
the frontier map, the starting set S of definition blocks, the variable
and the initial phi table: done blocks are in the iterated dominance
frontier, pending blocks have been seen, seen blocks are starting or
done blocks, all starting and done blocks have been seen, and the phi
table holds exactly one empty phi for the variable at each done block. -/
structure PlaceInv (DF : Nat → List Nat) (S : List Nat) (v : Expr)
    (phis0 : List (Nat × List (Expr × Expr))) (st : PSt) : Prop where
  done_idf : ∀ n ∈ st.done, InIDF DF S n
  todo_intodo : ∀ n ∈ st.todo, n ∈ st.intodo
  intodo_sub : ∀ n ∈ st.intodo, n ∈ S ∨ n ∈ st.done
  s_intodo : ∀ n ∈ S, n ∈ st.intodo
  done_intodo : ∀ n ∈ st.done, n ∈ st.intodo
  phis_spec : ∀ n, phiGet st.phis n v =
    if n ∈ st.done then some (genEmptyPhi v) else phiGet phis0 n v

/-- Closure bookkeeping of the worklist: every seen block is excused,
still pending, or has its whole dominance frontier done. -/
def PlaceClo (DF : Nat → List Nat) (exc : List Nat) (st : PSt) : Prop :=
  ∀ b ∈ st.intodo, b ∈ exc ∨ b ∈ st.todo ∨ ∀ n ∈ DF b, n ∈ st.done

/-- Termination measure of the placement worklist over a universe of
blocks: pending blocks plus universe blocks never seen. -/
def pMeasure (U : List Nat) (st : PSt) : Nat :=
  st.todo.length + (U.filter (fun u => decide (u ∉ st.intodo))).length

/-- Phi-table view at one block: the block has an entry list, its keys
are unique, and every payload carries the same operand count. -/
def PhiOk (B : Nat) (m : Nat) (st : SSASt) : Prop :=
  (alistGet st.phinodes B).isSome ∧
  (alistKeys ((alistGet st.phinodes B).getD [])).Nodup ∧
  ∀ p ∈ (alistGet st.phinodes B).getD [], opCount p.2 = m

/-- Number of edges from the walked blocks into a block, counted with
multiplicity: one phi-operand append happens per such edge. -/
def walkEdges (g : DiGraph) (W : List Nat) (B : Nat) : Nat :=
  (W.map (fun b => (g.succs b).count B)).sum

/-- Lookup after an update at the same key. -/
theorem alistGet_set_self [DecidableEq α] (m : List (α × β)) (k : α) (v : β) :
    alistGet (alistSet m k v) k = some v := by
  induction m with
  | nil => simp [alistSet, alistGet]
  | cons p rest ih =>
    by_cases h : p.1 = k
    · simp [alistSet, alistGet, h]
    · simp [alistSet, alistGet, h, ih]

/-- Lookup after an update at a different key. -/
theorem alistGet_set_ne [DecidableEq α] (m : List (α × β)) (k k2 : α) (v : β)
    (h : k ≠ k2) : alistGet (alistSet m k v) k2 = alistGet m k2 := by
  induction m with
  | nil => simp [alistSet, alistGet, h]
  | cons p rest ih =>
    by_cases hp : p.1 = k
    · rw [show alistSet (p :: rest) k v = (k, v) :: rest by simp [alistSet, hp]]
      have hpk2 : ¬ p.1 = k2 := by rw [hp]; exact h
      simp [alistGet, h, hpk2]
    · rw [show alistSet (p :: rest) k v = p :: alistSet rest k v by simp [alistSet, hp]]
      by_cases hp2 : p.1 = k2
      · simp [alistGet, hp2]
      · simp [alistGet, hp2, ih]

/-- Membership of a key is equivalent to a defined lookup. -/
theorem alistGet_isSome_iff [DecidableEq α] (m : List (α × β)) (k : α) :
    (alistGet m k).isSome ↔ k ∈ alistKeys m := by
  induction m with
  | nil => simp [alistGet, alistKeys]
  | cons p rest ih =>
    by_cases h : p.1 = k
    · simp [alistGet, alistKeys, h]
    · simp [alistGet, alistKeys, h, ih, Ne.symm h]

/-- Lookup of a present pair under unique keys. -/
theorem alistGet_of_mem_nodup [DecidableEq α] (m : List (α × β)) (k : α) (v : β)
    (hnd : (alistKeys m).Nodup) (hmem : (k, v) ∈ m) : alistGet m k = some v := by
  induction m with
  | nil => simp at hmem
  | cons p rest ih =>
    simp only [alistKeys, List.map_cons, List.nodup_cons] at hnd
    rcases List.mem_cons.mp hmem with h | h
    · subst h; simp [alistGet]
    · have hk : p.1 ≠ k := by
        intro he
        exact hnd.1 (he ▸ (List.mem_map.mpr ⟨(k, v), h, rfl⟩))
      simp [alistGet, hk]
      exact ih hnd.2 h

/-- Pairs of a looked-up value are members. -/
theorem mem_of_alistGet [DecidableEq α] (m : List (α × β)) (k : α) (v : β)
    (h : alistGet m k = some v) : (k, v) ∈ m := by
  induction m with
  | nil => simp [alistGet] at h
  | cons p rest ih =>
    by_cases hp : p.1 = k
    · simp [alistGet, hp] at h
      have hpv : p = (k, v) := by
        cases p
        simp only at hp
        simp only at h
        rw [hp, h]
      rw [← hpv]
      exact List.mem_cons_self _ _
    · simp [alistGet, hp] at h
      exact List.mem_cons_of_mem _ (ih h)

/-- Keys after an update at a present key. -/
theorem alistKeys_set_mem [DecidableEq α] (m : List (α × β)) (k : α) (v : β)
    (h : k ∈ alistKeys m) : alistKeys (alistSet m k v) = alistKeys m := by
  induction m with
  | nil => simp [alistKeys] at h
  | cons p rest ih =>
    by_cases hp : p.1 = k
    · simp [alistSet, alistKeys, hp]
    · simp only [alistKeys, List.map_cons, List.mem_cons] at h
      rcases h with h2 | h2
      · exact absurd h2.symm hp
      · have ihr := ih (by simpa [alistKeys] using h2)
        simp only [alistKeys] at ihr
        simp [alistSet, alistKeys, hp, ihr]

/-- Members of an updated list come from the original or are the new pair. -/
theorem mem_alistSet [DecidableEq α] (m : List (α × β)) (k : α) (v : β) (p : α × β)
    (h : p ∈ alistSet m k v) : p ∈ m ∨ p = (k, v) := by
  induction m with
  | nil =>
    simp only [alistSet, List.mem_singleton] at h
    right; exact h
  | cons q rest ih =>
    by_cases hq : q.1 = k
    · rw [show alistSet (q :: rest) k v = (k, v) :: rest by simp [alistSet, hq]] at h
      rcases List.mem_cons.mp h with h2 | h2
      · right; exact h2
      · left; exact List.mem_cons_of_mem _ h2
    · rw [show alistSet (q :: rest) k v = q :: alistSet rest k v by simp [alistSet, hq]] at h
      rcases List.mem_cons.mp h with h2 | h2
      · left; exact List.mem_cons.mpr (Or.inl h2)
      · rcases ih h2 with h3 | h3
        · left; exact List.mem_cons_of_mem _ h3
        · right; exact h3

/-- Members of a list with a key removed are members of the original. -/
theorem mem_alistRemove [DecidableEq α] (m : List (α × β)) (k : α) (p : α × β)
    (h : p ∈ alistRemove m k) : p ∈ m := by
  induction m with
  | nil => simp [alistRemove] at h
  | cons q rest ih =>
    by_cases hq : q.1 = k
    · simp only [alistRemove, if_pos hq] at h
      exact List.mem_cons_of_mem _ h
    · simp only [alistRemove, if_neg hq, List.mem_cons] at h
      rcases h with h | h
      · exact List.mem_cons.mpr (Or.inl h)
      · exact List.mem_cons_of_mem _ (ih h)

/-- Accumulator form of the reordering performed by
SSA._parallel_instructions: prepending memory assignments and appending
the others. -/
theorem parallelInstructions_foldl (l : AssignBlk) : ∀ (rm ids : AssignBlk),
    l.foldl
      (fun instructions aff =>
        if aff.1.isMem then aff :: instructions else instructions ++ [aff])
      (rm ++ ids)
    = ((l.filter (fun a => a.1.isMem)).reverse ++ rm) ++
        (ids ++ l.filter (fun a => !(a.1.isMem))) := by
  induction l with
  | nil => intro rm ids; simp
  | cons a l ih =>
    intro rm ids
    by_cases h : a.1.isMem
    · rw [List.foldl_cons, if_pos h,
        show a :: (rm ++ ids) = (a :: rm) ++ ids from rfl, ih (a :: rm) ids]
      simp [List.filter_cons, h, List.append_assoc]
    · rw [List.foldl_cons, if_neg h,
        show (rm ++ ids) ++ [a] = rm ++ (ids ++ [a]) by simp [List.append_assoc],
        ih rm (ids ++ [a])]
      simp [List.filter_cons, h, List.append_assoc]

/-- C4 (corrected): the reordered instruction list consists of all
memory-destination assignments first in REVERSED input order, followed
by all identifier-destination assignments in input order; each
insert(0, ...) of the source reverses the memory group. -/
theorem c4_parallel_instructions_order (assignblk : AssignBlk) :
    parallelInstructions assignblk =
      (assignblk.filter (fun a => a.1.isMem)).reverse ++
        assignblk.filter (fun a => !(a.1.isMem)) := by
  have h := parallelInstructions_foldl assignblk [] []
  simpa [parallelInstructions] using h

/-- C4 counterexample: on an AssignBlock with two memory destinations
the memory group comes out in reversed input order, so the reordering
claimed by the specification (input order preserved within the memory
group) does not hold. -/
theorem c4_counterexample :
    parallelInstructions
        [(Expr.mem xV 32, xV), (Expr.mem yV 32, yV), (xV, yV)] =
      [(Expr.mem yV 32, yV), (Expr.mem xV 32, xV), (xV, yV)] ∧
    parallelInstructions
        [(Expr.mem xV 32, xV), (Expr.mem yV 32, yV), (xV, yV)] ≠
      [(Expr.mem xV 32, xV), (Expr.mem yV 32, yV), (xV, yV)] := by
  constructor
  · rfl
  · decide

/-- C10: reassemble_expr looks up its input expression in the
expressions table in its first iteration, so an input that is not a key
of the table raises KeyError at once instead of being returned
unchanged. -/
theorem c10_reassemble_keyerror (tbl : List (Expr × Expr)) (fuel : Nat) (e : Expr)
    (h : alistGet tbl e = none) :
    reassembleExpr tbl (fuel + 1) e = .keyError := by
  simp [reassembleExpr, reassembleLoop, h]

/-- C10 witness: the versioned variable b.0 is not a key of the
one-entry table, and reassemble raises KeyError on it. -/
theorem c10_witness :
    alistGet oneTbl bS = none ∧ reassembleExpr oneTbl 1 bS = .keyError :=
  ⟨by decide, c10_reassemble_keyerror oneTbl 0 bS (by decide)⟩

/-- C2 counterexample: on the cyclic two-entry table the worklist pops
the key a.0, then b.0, then a.0 again, so a key is processed twice,
against the claim that each key is processed at most once. -/
theorem c2_counterexample :
    reassembleTrace cycTbl 3 [aS] aS = [aS, bS, aS] ∧
    ¬ (reassembleTrace cycTbl 3 [aS] aS).Nodup := by
  constructor
  · rfl
  · decide

/-- Helper for the cyclic table: from either singleton worklist the
loop runs out of any amount of fuel, alternating between the two keys. -/
theorem cycTbl_loop_spins (fuel : Nat) :
    ∀ e : Expr, reassembleLoop cycTbl fuel [aS] e = .outOfFuel ∧
      reassembleLoop cycTbl fuel [bS] e = .outOfFuel := by
  induction fuel with
  | zero => intro e; exact ⟨rfl, rfl⟩
  | succ n ih =>
    intro e
    constructor
    · have step : reassembleLoop cycTbl (n + 1) [aS] e =
          reassembleLoop cycTbl n [bS] (Expr.replaceE aS (fillPhi [bS]) e) := rfl
      rw [step]
      exact (ih _).2
    · have step : reassembleLoop cycTbl (n + 1) [bS] e =
          reassembleLoop cycTbl n [aS] (Expr.replaceE bS (fillPhi [aS]) e) := rfl
      rw [step]
      exact (ih _).1

/-- C2 (corrected): the worklist is a set, so duplicate pending keys
are coalesced, but there is no visited set: a popped key is pushed
again when it reappears in a substituted right-hand side, so on a
cyclic phi-induced table the loop never terminates, for any fuel. -/
theorem c2_reassemble_cycle_diverges (fuel : Nat) :
    reassembleExpr cycTbl fuel aS = .outOfFuel :=
  (cycTbl_loop_spins fuel aS).1

/-- C8 counterexample: reassemble maps a.0 to the constant 1, but
applying reassemble to that result raises KeyError, so
reassemble(reassemble(a.0)) differs from reassemble(a.0). -/
theorem c8_counterexample :
    reassembleExpr oneTbl 2 aS = .ok (.int 1 32) ∧
    reassembleExpr oneTbl 2 (.int 1 32) = .keyError := ⟨rfl, rfl⟩

/-- C8 (corrected): reassemble is not idempotent; whenever it succeeds
and its result is not itself a key of the expressions table, the second
application raises KeyError instead of returning the result unchanged. -/
theorem c8_reassemble_not_idempotent (tbl : List (Expr × Expr))
    (fuel fuel2 : Nat) (e r : Expr)
    (h1 : reassembleExpr tbl fuel e = .ok r)
    (h2 : alistGet tbl r = none) :
    reassembleExpr tbl (fuel2 + 1) r = .keyError ∧
    reassembleExpr tbl (fuel2 + 1) r ≠ reassembleExpr tbl fuel e := by
  have hk : reassembleExpr tbl (fuel2 + 1) r = .keyError := by
    simp [reassembleExpr, reassembleLoop, h2]
  refine ⟨hk, ?_⟩
  rw [hk, h1]
  intro hc
  exact RResult.noConfusion hc

/-- C8 witness: the concrete run on the one-entry table discharges the
hypotheses of the corrected statement. -/
theorem c8_witness :
    reassembleExpr oneTbl 2 aS = .ok (.int 1 32) ∧
    alistGet oneTbl (Expr.int 1 32) = none ∧
    reassembleExpr oneTbl 2 (.int 1 32) = .keyError ∧
    reassembleExpr oneTbl 2 (.int 1 32) ≠ reassembleExpr oneTbl 2 aS :=
  ⟨rfl, by decide,
    (c8_reassemble_not_idempotent oneTbl 2 1 aS (.int 1 32) rfl (by decide)).1,
    (c8_reassemble_not_idempotent oneTbl 2 1 aS (.int 1 32) rfl (by decide)).2⟩

/-- Reduction of the LHS transformation on an identifier destination. -/
theorem transformExpressionLhs_id (st : SSASt) (n : IdName) (w : Nat) :
    transformExpressionLhs st (.id n w) =
      (let p := transformVarLhs st (.id n w)
       let k := (alistGet p.2.stackLhs (.id n w)).getD 0
       (p.1, { p.2 with stackLhs := alistSet p.2.stackLhs (.id n w) (k + 1) })) := rfl

/-- C3: inside one AssignBlock a variable that is both read and
written receives its pre-block version on every right-hand side and a
fresh version on the left-hand side: with reaching version k for x and
j for y, the block x, e parallel-with y, x renames to
x.(k+1) = rhs-view of e and y.(j+1) = x.k, and the rhs-view sends the
identifier x to x.k. -/
theorem c3_parallel_block_rename (nx ny : IdName) (sx sy : Nat) (e : Expr)
    (k j : Nat) (st : SSASt)
    (hxy : (Expr.id nx sx) ≠ (Expr.id ny sy))
    (hrx : alistGet st.stackRhs (.id nx sx) = some k)
    (hlx : alistGet st.stackLhs (.id nx sx) = some (k + 1))
    (hly : alistGet st.stackLhs (.id ny sy) = some (j + 1)) :
    (renameAssignBlk st [(.id nx sx, e), (.id ny sy, .id nx sx)]).1 =
      [(.id (.ssa nx (k + 1)) sx, transformExpressionRhs st e),
       (.id (.ssa ny (j + 1)) sy, .id (.ssa nx k) sx)] ∧
    transformVarRhs st (.id nx sx) = .id (.ssa nx k) sx := by
  have hvr : transformVarRhs st (.id nx sx) = .id (.ssa nx k) sx := by
    simp [transformVarRhs, hrx, genVarExpr]
  refine ⟨?_, hvr⟩
  have hrhs2 : transformExpressionRhs st (.id nx sx) = .id (.ssa nx k) sx := by
    simp [transformExpressionRhs, Expr.idLeaves, Expr.idLeavesRaw, setAdd,
      Expr.replaceE, hvr]
  have hpar : parallelInstructions [(Expr.id nx sx, e), (Expr.id ny sy, .id nx sx)] =
      [(Expr.id nx sx, e), (Expr.id ny sy, .id nx sx)] := by
    simp [parallelInstructions, Expr.isMem]
  rw [renameAssignBlk, hpar]
  simp only [List.map_cons, List.map_nil, hrhs2]
  rw [renameLhsPhase, transformExpressionLhs_id]
  simp only [transformVarLhs, hlx, Option.isSome_some, if_pos, Option.getD_some]
  rw [renameLhsPhase, transformExpressionLhs_id]
  simp only [transformVarLhs]
  rw [alistGet_set_ne _ _ _ _ hxy, hly]
  simp only [Option.isSome_some, if_pos, Option.getD_some]
  rw [alistGet_set_ne _ _ _ _ hxy, hly]
  simp only [Option.getD_some]
  rw [renameLhsPhase]
  simp [genVarExpr]

/-- C3 witness: concrete run with x carrying reaching version 3 and y
carrying reaching version 5. -/
theorem c3_witness :
    (renameAssignBlk
        { orig := fun _ => [], blocks := [], stackRhs := [(xV, 3)],
          stackLhs := [(xV, 4), (yV, 6)], expressions := [], defs := [],
          phinodes := [] }
        [(xV, Expr.op "add" [xV, .int 1 32]), (yV, xV)]).1 =
      [(.id (.ssa (.base "x") 4) 32,
        Expr.op "add" [.id (.ssa (.base "x") 3) 32, .int 1 32]),
       (.id (.ssa (.base "y") 6) 32, .id (.ssa (.base "x") 3) 32)] := by
  have h := c3_parallel_block_rename (.base "x") (.base "y") 32 32
    (Expr.op "add" [xV, .int 1 32]) 3 5
    { orig := fun _ => [], blocks := [], stackRhs := [(xV, 3)],
      stackLhs := [(xV, 4), (yV, 6)], expressions := [], defs := [],
      phinodes := [] }
    (by decide) (by decide) (by decide) (by decide)
  rw [show (Expr.id (.base "x") 32) = xV from rfl,
    show (Expr.id (.base "y") 32) = yV from rfl] at h
  rw [h.1]
  decide

/-- Preservation of a state projection through a fold. -/
theorem foldl_preserve {γ : Type _} {δ : Type _} (proj : SSASt → δ)
    (f : SSASt → γ → SSASt) (h : ∀ st a, proj (f st a) = proj st) :
    ∀ (l : List γ) (st : SSASt), proj (l.foldl f st) = proj st := by
  intro l
  induction l with
  | nil => intro st; rfl
  | cons a l ih => intro st; rw [List.foldl_cons, ih, h]

/-- Fields of the state untouched by transformVarLhs. -/
theorem transformVarLhs_quiet (st : SSASt) (v : Expr) :
    (transformVarLhs st v).2.orig = st.orig ∧
    (transformVarLhs st v).2.blocks = st.blocks ∧
    (transformVarLhs st v).2.expressions = st.expressions ∧
    (transformVarLhs st v).2.defs = st.defs ∧
    (transformVarLhs st v).2.phinodes = st.phinodes := by
  by_cases h : (alistGet st.stackLhs v).isSome <;>
    simp [transformVarLhs, h]

/-- Fields of the state untouched by transformExpressionLhs. -/
theorem transformExpressionLhs_quiet (st : SSASt) (dst : Expr) :
    (transformExpressionLhs st dst).2.orig = st.orig ∧
    (transformExpressionLhs st dst).2.blocks = st.blocks ∧
    (transformExpressionLhs st dst).2.expressions = st.expressions ∧
    (transformExpressionLhs st dst).2.defs = st.defs ∧
    (transformExpressionLhs st dst).2.phinodes = st.phinodes := by
  cases dst with
  | mem a s => simp [transformExpressionLhs]
  | id n s =>
    have h := transformVarLhs_quiet st (.id n s)
    simp only [transformExpressionLhs]
    exact ⟨h.1, h.2.1, h.2.2.1, h.2.2.2.1, h.2.2.2.2⟩
  | int v s =>
    have h := transformVarLhs_quiet st (.int v s)
    simp only [transformExpressionLhs]
    exact ⟨h.1, h.2.1, h.2.2.1, h.2.2.2.1, h.2.2.2.2⟩
  | op sy args =>
    have h := transformVarLhs_quiet st (.op sy args)
    simp only [transformExpressionLhs]
    exact ⟨h.1, h.2.1, h.2.2.1, h.2.2.2.1, h.2.2.2.2⟩

/-- Fields of the state untouched by the LHS phase of the block rename. -/
theorem renameLhsPhase_quiet (instructions : AssignBlk) :
    ∀ (rhs : List Expr) (st : SSASt),
      (renameLhsPhase st instructions rhs).2.orig = st.orig ∧
      (renameLhsPhase st instructions rhs).2.blocks = st.blocks ∧
      (renameLhsPhase st instructions rhs).2.defs = st.defs ∧
      (renameLhsPhase st instructions rhs).2.phinodes = st.phinodes := by
  induction instructions with
  | nil => intro rhs st; exact ⟨rfl, rfl, rfl, rfl⟩
  | cons aff rest ih =>
    intro rhs st
    cases rhs with
    | nil => exact ⟨rfl, rfl, rfl, rfl⟩
    | cons r rhsRest =>
      have hq := transformExpressionLhs_quiet st aff.1
      have hr := ih rhsRest
        { (transformExpressionLhs st aff.1).2 with
          expressions := alistSet (transformExpressionLhs st aff.1).2.expressions
            (transformExpressionLhs st aff.1).1 r }
      simp only [renameLhsPhase]
      refine ⟨?_, ?_, ?_, ?_⟩
      · rw [hr.1]; exact hq.1
      · rw [hr.2.1]; exact hq.2.1
      · rw [hr.2.2.1]; exact hq.2.2.2.1
      · rw [hr.2.2.2]; exact hq.2.2.2.2

/-- Fields of the state untouched by renameAssignBlk. -/
theorem renameAssignBlk_quiet (st : SSASt) (ab : AssignBlk) :
    (renameAssignBlk st ab).2.orig = st.orig ∧
    (renameAssignBlk st ab).2.blocks = st.blocks ∧
    (renameAssignBlk st ab).2.defs = st.defs ∧
    (renameAssignBlk st ab).2.phinodes = st.phinodes :=
  renameLhsPhase_quiet (parallelInstructions ab) _ st

/-- Fields of the state untouched by renameIrs. -/
theorem renameIrs_quiet (irs : IRBlock) : ∀ (st : SSASt),
    (renameIrs st irs).2.orig = st.orig ∧
    (renameIrs st irs).2.blocks = st.blocks ∧
    (renameIrs st irs).2.defs = st.defs ∧
    (renameIrs st irs).2.phinodes = st.phinodes := by
  induction irs with
  | nil => intro st; exact ⟨rfl, rfl, rfl, rfl⟩
  | cons ab rest ih =>
    intro st
    have h1 := renameAssignBlk_quiet st ab
    have h2 := ih (renameAssignBlk st ab).2
    simp only [renameIrs]
    exact ⟨h2.1.trans h1.1, h2.2.1.trans h1.2.1,
      h2.2.2.1.trans h1.2.2.1, h2.2.2.2.trans h1.2.2.2⟩

/-- Fields of the state untouched by getBlock. -/
theorem getBlock_quiet (st : SSASt) (label : Nat) :
    (getBlock st label).2.orig = st.orig ∧
    (getBlock st label).2.stackRhs = st.stackRhs ∧
    (getBlock st label).2.stackLhs = st.stackLhs ∧
    (getBlock st label).2.expressions = st.expressions ∧
    (getBlock st label).2.defs = st.defs ∧
    (getBlock st label).2.phinodes = st.phinodes := by
  cases h : alistGet st.blocks label <;> simp [getBlock, copyBlock, h]

/-- Fields of the state untouched by renameExpressions. -/
theorem renameExpressions_quiet (st : SSASt) (label : Nat) :
    (renameExpressions st label).orig = st.orig ∧
    (renameExpressions st label).defs = st.defs ∧
    (renameExpressions st label).phinodes = st.phinodes := by
  have h1 := getBlock_quiet st label
  have h2 := renameIrs_quiet (getBlock st label).1 (getBlock st label).2
  simp only [renameExpressions]
  exact ⟨h2.1.trans h1.1, h2.2.2.1.trans h1.2.2.2.2.1, h2.2.2.2.trans h1.2.2.2.2.2⟩


/-- Fields of the state untouched by one phi key rename. -/
theorem renamePhiLhsOne_quiet (label : Nat) (st : SSASt) (dst : Expr) :
    (renamePhiLhsOne label st dst).orig = st.orig ∧
    (renamePhiLhsOne label st dst).blocks = st.blocks ∧
    (renamePhiLhsOne label st dst).expressions = st.expressions ∧
    (renamePhiLhsOne label st dst).defs = st.defs := by
  have hq := transformExpressionLhs_quiet st dst
  cases h2 : alistGet ((alistGet st.phinodes label).getD []) dst with
  | none => simp [renamePhiLhsOne, h2]
  | some rhs =>
    simp only [renamePhiLhsOne, h2]
    exact ⟨hq.1, hq.2.1, hq.2.2.1, hq.2.2.2.1⟩

/-- Fields of the state untouched by renamePhiLhs. -/
theorem renamePhiLhs_quiet (st : SSASt) (label : Nat) :
    (renamePhiLhs st label).orig = st.orig ∧
    (renamePhiLhs st label).blocks = st.blocks ∧
    (renamePhiLhs st label).expressions = st.expressions ∧
    (renamePhiLhs st label).defs = st.defs := by
  refine ⟨?_, ?_, ?_, ?_⟩
  · exact foldl_preserve (fun s => s.orig) (renamePhiLhsOne label)
      (fun s d => (renamePhiLhsOne_quiet label s d).1) _ st
  · exact foldl_preserve (fun s => s.blocks) (renamePhiLhsOne label)
      (fun s d => (renamePhiLhsOne_quiet label s d).2.1) _ st
  · exact foldl_preserve (fun s => s.expressions) (renamePhiLhsOne label)
      (fun s d => (renamePhiLhsOne_quiet label s d).2.2.1) _ st
  · exact foldl_preserve (fun s => s.defs) (renamePhiLhsOne label)
      (fun s d => (renamePhiLhsOne_quiet label s d).2.2.2) _ st

/-- Fields of the state untouched by one phi operand update. -/
theorem renamePhiRhsOne_quiet (successor : Nat) (st : SSASt) (dst : Expr) :
    (renamePhiRhsOne successor st dst).orig = st.orig ∧
    (renamePhiRhsOne successor st dst).blocks = st.blocks ∧
    (renamePhiRhsOne successor st dst).stackRhs = st.stackRhs ∧
    (renamePhiRhsOne successor st dst).stackLhs = st.stackLhs ∧
    (renamePhiRhsOne successor st dst).expressions = st.expressions ∧
    (renamePhiRhsOne successor st dst).defs = st.defs := by
  cases h2 : alistGet ((alistGet st.phinodes successor).getD []) dst <;>
    simp [renamePhiRhsOne, h2]

/-- Fields of the state untouched by renamePhiRhs. -/
theorem renamePhiRhs_quiet (st : SSASt) (successor : Nat) :
    (renamePhiRhs st successor).orig = st.orig ∧
    (renamePhiRhs st successor).blocks = st.blocks ∧
    (renamePhiRhs st successor).stackRhs = st.stackRhs ∧
    (renamePhiRhs st successor).stackLhs = st.stackLhs ∧
    (renamePhiRhs st successor).expressions = st.expressions ∧
    (renamePhiRhs st successor).defs = st.defs := by
  refine ⟨?_, ?_, ?_, ?_, ?_, ?_⟩
  · exact foldl_preserve (fun s => s.orig) (renamePhiRhsOne successor)
      (fun s d => (renamePhiRhsOne_quiet successor s d).1) _ st
  · exact foldl_preserve (fun s => s.blocks) (renamePhiRhsOne successor)
      (fun s d => (renamePhiRhsOne_quiet successor s d).2.1) _ st
  · exact foldl_preserve (fun s => s.stackRhs) (renamePhiRhsOne successor)
      (fun s d => (renamePhiRhsOne_quiet successor s d).2.2.1) _ st
  · exact foldl_preserve (fun s => s.stackLhs) (renamePhiRhsOne successor)
      (fun s d => (renamePhiRhsOne_quiet successor s d).2.2.2.1) _ st
  · exact foldl_preserve (fun s => s.expressions) (renamePhiRhsOne successor)
      (fun s d => (renamePhiRhsOne_quiet successor s d).2.2.2.2.1) _ st
  · exact foldl_preserve (fun s => s.defs) (renamePhiRhsOne successor)
      (fun s d => (renamePhiRhsOne_quiet successor s d).2.2.2.2.2) _ st

/-- Preservation of the original blocks by the walk body. -/
theorem renameBlockStep_orig (g : DiGraph) (st : SSASt) (b : Nat) :
    (renameBlockStep g st b).orig = st.orig := by
  have h1 := (renamePhiLhs_quiet st b).1
  have h2 := (renameExpressions_quiet (renamePhiLhs st b) b).1
  have h3 := foldl_preserve (fun s => s.orig) renamePhiRhs
    (fun s d => (renamePhiRhs_quiet s d).1) (g.succs b)
    (renameExpressions (renamePhiLhs st b) b)
  simp only [renameBlockStep]
  rw [h3, h2, h1]

/-- Preservation of the original blocks by the walk loop. -/
theorem renameLoop_orig (g : DiGraph) (ch : Nat → List Nat) :
    ∀ (walk : List Nat) (stack : List VarMap) (st : SSASt),
      (renameLoop g ch walk stack st).1.orig = st.orig := by
  intro walk
  induction walk with
  | nil => intro stack st; rfl
  | cons b rest ih =>
    intro stack st
    cases stack with
    | nil => rfl
    | cons top stackRest =>
      simp only [renameLoop]
      rw [ih]
      exact renameBlockStep_orig g { st with stackRhs := top } b

/-- Fields of the state untouched by recording one destination. -/
theorem initDefsOne_quiet (ip : List Expr) (label : Nat) (st : SSASt) (dst : Expr) :
    (initDefsOne ip label st dst).orig = st.orig ∧
    (initDefsOne ip label st dst).phinodes = st.phinodes := by
  by_cases h1 : dst.isId <;> by_cases h2 : dst ∈ ip <;>
    simp [initDefsOne, h1, h2]

/-- Fields of the state untouched by recording one block. -/
theorem initDefsBlock_quiet (ip : List Expr) (st : SSASt) (label : Nat) :
    (initDefsBlock ip st label).orig = st.orig ∧
    (initDefsBlock ip st label).phinodes = st.phinodes := by
  have hg := getBlock_quiet st label
  simp only [initDefsBlock]
  constructor
  · rw [foldl_preserve (fun s => s.orig) (initDefsOne ip label)
      (fun s d => (initDefsOne_quiet ip label s d).1) _ _]
    exact hg.1
  · rw [foldl_preserve (fun s => s.phinodes) (initDefsOne ip label)
      (fun s d => (initDefsOne_quiet ip label s d).2) _ _]
    exact hg.2.2.2.2.2

/-- Fields of the state untouched by initVariableDefs. -/
theorem initVariableDefs_quiet (ip : List Expr) (walk : List Nat) (st : SSASt) :
    (initVariableDefs ip walk st).orig = st.orig ∧
    (initVariableDefs ip walk st).phinodes = st.phinodes := by
  constructor
  · exact foldl_preserve (fun s => s.orig) (initDefsBlock ip)
      (fun s l => (initDefsBlock_quiet ip s l).1) walk st
  · exact foldl_preserve (fun s => s.phinodes) (initDefsBlock ip)
      (fun s l => (initDefsBlock_quiet ip s l).2) walk st

/-- Preservation of the original blocks by convertPhi. -/
theorem convertPhi_orig (st : SSASt) : (convertPhi st).orig = st.orig := by
  have h : ∀ (s : SSASt) (bl : Nat × List (Expr × Expr)),
      (convertPhiOne s bl).orig = s.orig := by
    intro s bl
    simp only [convertPhiOne]
    exact (getBlock_quiet s bl.1).1
  exact foldl_preserve (fun s => s.orig) convertPhiOne h st.phinodes st

/-- C9: the driver clones a block on first access and returns the same
clone on every later access without re-cloning, and no transform
(block-level or full-CFG) modifies the original blocks it reads from
the IRA: only the cache of clones is written. -/
theorem c9_clone_on_first_access (st : SSASt) (label : Nat) (g : DiGraph)
    (head : Nat) (ip : List Expr) (t : DomTree) (fuel : Nat) :
    getBlock (getBlock st label).2 label = ((getBlock st label).1, (getBlock st label).2) ∧
    (ssaBlockTransform st label).orig = st.orig ∧
    (ssaPathTransform st [label]).orig = st.orig ∧
    (ssaDigraphTransform g head ip t fuel st).orig = st.orig := by
  refine ⟨?_, ?_, ?_, ?_⟩
  · cases h : alistGet st.blocks label with
    | some ib => simp [getBlock, h]
    | none =>
      simp only [getBlock, h, copyBlock]
      rw [alistGet_set_self]
  · exact (renameExpressions_quiet st label).1
  · exact (renameExpressions_quiet st label).1
  · simp only [ssaDigraphTransform]
    rw [convertPhi_orig]
    show (renameAll g t _).orig = _
    simp only [renameAll]
    rw [renameLoop_orig]
    show (placePhi _ fuel _).orig = _
    simp only [placePhi]
    exact (initVariableDefs_quiet ip (walkDFF g head) st).1

/-- C9 witness: the concrete diamond input exercises both conjuncts. -/
theorem c9_witness :
    getBlock (getBlock (initSt blocksEx) 0).2 0 =
      ((getBlock (initSt blocksEx) 0).1, (getBlock (initSt blocksEx) 0).2) ∧
    (ssaDigraphTransform gDia 0 [irdstV] tDia 20 (initSt blocksEx)).orig = blocksEx :=
  ⟨(c9_clone_on_first_access (initSt blocksEx) 0 gDia 0 [irdstV] tDia 20).1,
   (c9_clone_on_first_access (initSt blocksEx) 0 gDia 0 [irdstV] tDia 20).2.2.2⟩

/-- C1 counterexample: a block assigning to IRDst has that destination
renamed to the versioned identifier (IRDst, 0) by the block transform,
so IRDst does not appear identically on LHS positions and does receive
an SSA version. -/
theorem c1_counterexample :
    alistGet (ssaBlockTransform (initSt (fun _ => [[(irdstV, .int 5 32)]])) 0).blocks 0 =
      some [[(.id (.ssa (.base "IRDst") 0) 32, .int 5 32)]] ∧
    (Expr.id (.ssa (.base "IRDst") 0) 32) ≠ irdstV := by
  constructor
  · rfl
  · decide

/-- Lookup in the defs map at an instruction pointer identifier is not
changed by recording a destination. -/
theorem initDefsOne_defs_ip (ip : List Expr) (label : Nat) (st : SSASt)
    (dst v : Expr) (hv : v ∈ ip) :
    alistGet (initDefsOne ip label st dst).defs v = alistGet st.defs v := by
  by_cases h1 : dst.isId
  · by_cases h2 : dst ∈ ip
    · simp [initDefsOne, h1, h2]
    · have hne : dst ≠ v := fun he => h2 (he ▸ hv)
      simp [initDefsOne, h1, h2, alistGet_set_ne _ _ _ _ hne]
  · simp [initDefsOne, h1]

/-- Lookup in the defs map at an instruction pointer identifier is not
changed by the whole defs initialization. -/
theorem initVariableDefs_defs_ip (ip : List Expr) (walk : List Nat) (st : SSASt)
    (v : Expr) (hv : v ∈ ip) :
    alistGet (initVariableDefs ip walk st).defs v = alistGet st.defs v := by
  have hb : ∀ (s : SSASt) (label : Nat),
      alistGet (initDefsBlock ip s label).defs v = alistGet s.defs v := by
    intro s label
    simp only [initDefsBlock]
    rw [foldl_preserve (fun s2 => alistGet s2.defs v) (initDefsOne ip label)
      (fun s2 d => initDefsOne_defs_ip ip label s2 d v hv) _ _]
    exact congrArg (fun m => alistGet m v) (getBlock_quiet s label).2.2.2.2.1
  exact foldl_preserve (fun s2 => alistGet s2.defs v) (initDefsBlock ip) hb walk st

/-- Phi installs for one variable leave the phi entries of every other
variable unchanged. -/
theorem phiGet_install_ne (phis : List (Nat × List (Expr × Expr))) (n : Nat)
    (w rhs : Expr) (n2 : Nat) (v : Expr) (hvw : v ≠ w) :
    phiGet (phiInstall phis n w rhs) n2 v = phiGet phis n2 v := by
  have hwv : ¬ (w = v) := fun he => hvw he.symm
  by_cases hn : n = n2
  · subst hn
    cases h : alistGet phis n with
    | none => simp [phiInstall, phiGet, h, alistGet_set_self, alistGet, hwv]
    | some entries =>
      simp [phiInstall, phiGet, h, alistGet_set_self,
        alistGet_set_ne entries w v rhs hwv]
  · cases h : alistGet phis n with
    | none => simp [phiInstall, phiGet, h, alistGet_set_ne _ _ _ _ hn]
    | some entries => simp [phiInstall, phiGet, h, alistGet_set_ne _ _ _ _ hn]

/-- The frontier pass for one variable leaves the phi entries of every
other variable unchanged. -/
theorem placeFrontier_phiGet_ne (v v2 : Expr) (hne : v2 ≠ v) :
    ∀ (ns : List Nat) (st : PSt) (n2 : Nat),
      phiGet (placeFrontier v ns st).phis n2 v2 = phiGet st.phis n2 v2 := by
  intro ns
  induction ns with
  | nil => intro st n2; rfl
  | cons n rest ih =>
    intro st n2
    by_cases hd : n ∈ st.done
    · simp only [placeFrontier, if_pos hd]
      exact ih st n2
    · simp only [placeFrontier, if_neg hd]
      rw [ih]
      have h1 : (placeEnqueue n (placeInstall v n st)).phis = (placeInstall v n st).phis := by
        unfold placeEnqueue
        split <;> rfl
      rw [h1]
      exact phiGet_install_ne st.phis n v (genEmptyPhi v) n2 v2 hne

/-- The worklist loop for one variable leaves the phi entries of every
other variable unchanged. -/
theorem placeLoop_phiGet_ne (DF : Nat → List Nat) (v v2 : Expr) (hne : v2 ≠ v) :
    ∀ (fuel : Nat) (st : PSt) (n2 : Nat),
      phiGet (placeLoop DF v fuel st).phis n2 v2 = phiGet st.phis n2 v2 := by
  intro fuel
  induction fuel with
  | zero => intro st n2; rfl
  | succ m ih =>
    intro st n2
    cases h : st.todo with
    | nil => simp only [placeLoop, h]
    | cons b rest =>
      simp only [placeLoop, h]
      rw [ih]
      exact placeFrontier_phiGet_ne v v2 hne (DF b) _ n2

/-- The full placement leaves the phi entries of a variable that is not
a key of the defs map unchanged. -/
theorem placePhi_phiGet_fresh (df : Nat → List Nat) (fuel : Nat) (st : SSASt)
    (v : Expr) (hv : alistGet st.defs v = none) (n : Nat) :
    phiGet (placePhi df fuel st).phinodes n v = phiGet st.phinodes n v := by
  have hkeys : ∀ d ∈ st.defs, d.1 ≠ v := by
    intro d hd he
    have hmem : v ∈ alistKeys st.defs := he ▸ List.mem_map.mpr ⟨d, hd, rfl⟩
    have := (alistGet_isSome_iff st.defs v).mpr hmem
    rw [hv] at this
    simp at this
  have haux : ∀ (L : List (Expr × List Nat)) (phis : List (Nat × List (Expr × Expr))),
      (∀ d ∈ L, d.1 ≠ v) →
      phiGet (L.foldl (fun phis d => placePhiVar df fuel d.2 phis d.1) phis) n v =
        phiGet phis n v := by
    intro L
    induction L with
    | nil => intro phis _; rfl
    | cons d L2 ih =>
      intro phis hL
      rw [List.foldl_cons, ih _ (fun d2 hd2 => hL d2 (List.mem_cons_of_mem _ hd2))]
      simp only [placePhiVar]
      exact placeLoop_phiGet_ne df d.1 v
        (fun he => hL d (List.mem_cons_self _ _) he.symm) fuel _ n
  exact haux st.defs st.phinodes hkeys

/-- C1 (corrected): IRDst and the program counter identifiers are
excluded from the defs map by the initialization walk and therefore
never receive a phi-function; the block renamer however versions an
IRDst destination like any other identifier destination (the
counterexample), so only the phi exclusion part of the claim holds. -/
theorem c1_ip_no_phi (g : DiGraph) (head : Nat) (ip : List Expr) (fuel : Nat)
    (st : SSASt) (v : Expr) (hv : v ∈ ip)
    (hfresh : alistGet st.defs v = none)
    (hphi : ∀ n, phiGet st.phinodes n v = none) :
    alistGet (initVariableDefs ip (walkDFF g head) st).defs v = none ∧
    ∀ n, phiGet (placePhi (dfFun (computeDF g head)) fuel
      (initVariableDefs ip (walkDFF g head) st)).phinodes n v = none := by
  have h1 : alistGet (initVariableDefs ip (walkDFF g head) st).defs v = none := by
    rw [initVariableDefs_defs_ip ip (walkDFF g head) st v hv]
    exact hfresh
  refine ⟨h1, fun n => ?_⟩
  rw [placePhi_phiGet_fresh _ fuel _ v h1 n]
  rw [congrArg (fun m => phiGet m n v) (initVariableDefs_quiet ip (walkDFF g head) st).2]
  exact hphi n

/-- C1 witness: with IRDst in the exclusion list, a graph whose head
block assigns IRDst and x yields a defs map without IRDst and no phi
entry for IRDst anywhere. -/
theorem c1_witness :
    alistGet (initVariableDefs [irdstV] (walkDFF gDia 0)
      (initSt (fun _ => [[(irdstV, .int 5 32), (xV, .int 0 32)]]))).defs irdstV = none ∧
    phiGet (placePhi (dfFun (computeDF gDia 0)) 20
      (initVariableDefs [irdstV] (walkDFF gDia 0)
        (initSt (fun _ => [[(irdstV, .int 5 32), (xV, .int 0 32)]])))).phinodes 3 irdstV = none :=
  ⟨(c1_ip_no_phi gDia 0 [irdstV] 20
      (initSt (fun _ => [[(irdstV, .int 5 32), (xV, .int 0 32)]])) irdstV
      (by decide) rfl (fun _ => rfl)).1,
   (c1_ip_no_phi gDia 0 [irdstV] 20
      (initSt (fun _ => [[(irdstV, .int 5 32), (xV, .int 0 32)]])) irdstV
      (by decide) rfl (fun _ => rfl)).2 3⟩

/-- Lookup in a concatenation when the left part defines the key. -/
theorem alistGet_append_left [DecidableEq α] (l1 l2 : List (α × β)) (k : α) (v : β)
    (h : alistGet l1 k = some v) : alistGet (l1 ++ l2) k = some v := by
  induction l1 with
  | nil => simp [alistGet] at h
  | cons p rest ih =>
    by_cases hp : p.1 = k
    · simp [alistGet, hp] at h
      simp [alistGet, hp, h]
    · simp [alistGet, hp] at h
      simp [alistGet, hp, ih h]

/-- Lookup in a concatenation when the left part does not define the key. -/
theorem alistGet_append_right [DecidableEq α] (l1 l2 : List (α × β)) (k : α)
    (h : alistGet l1 k = none) : alistGet (l1 ++ l2) k = alistGet l2 k := by
  induction l1 with
  | nil => rfl
  | cons p rest ih =>
    by_cases hp : p.1 = k
    · simp [alistGet, hp] at h
    · simp [alistGet, hp] at h
      simp [alistGet, hp, ih h]

/-- Undefined lookup is absence from the keys. -/
theorem alistGet_eq_none_iff [DecidableEq α] (m : List (α × β)) (k : α) :
    alistGet m k = none ↔ k ∉ alistKeys m := by
  rw [← alistGet_isSome_iff]
  cases alistGet m k <;> simp

/-- Pushing one copy per list element grows the stack by a replicate
block. -/
theorem foldl_push_replicate {α γ : Type _} (l : List γ) :
    ∀ (s : List α) (x : α),
      l.foldl (fun s2 _ => x :: s2) s = List.replicate l.length x ++ s := by
  induction l with
  | nil => intro s x; rfl
  | cons a l ih =>
    intro s x
    rw [List.foldl_cons, ih (x :: s) x, List.length_cons, List.replicate_succ']
    simp

mutual

/-- Simulation of the iterative scope-stack loop by the recursive walk
on one subtree: running the loop on the preorder of the subtree
followed by any remaining walk consumes exactly one stack snapshot, the
one the subtree root pops. -/
theorem loop_tree (g : DiGraph) (ch : Nat → List Nat) :
    ∀ (t : DomTree), DomTree.agrees ch t = true →
      ∀ (rest : List Nat) (stack : List VarMap) (vIn : VarMap) (st : SSASt),
        renameLoop g ch (t.preorder ++ rest) (vIn :: stack) st =
          ((renameLoop g ch rest stack (processTree g t vIn st).1).1,
           (renameLoop g ch rest stack (processTree g t vIn st).1).2.1,
           (processTree g t vIn st).2 ++
             (renameLoop g ch rest stack (processTree g t vIn st).1).2.2)
  | .node b ts => by
    intro hag rest stack vIn st
    simp only [DomTree.agrees, Bool.and_eq_true, beq_iff_eq] at hag
    have hlen : (ch b).length = ts.length := by
      rw [hag.1, List.length_map]
    rw [show (DomTree.node b ts).preorder ++ rest =
      b :: (DomTree.preorderF ts ++ rest) by simp [DomTree.preorder]]
    simp only [renameLoop, processTree]
    rw [foldl_push_replicate, hlen,
      loop_forest g ch ts hag.2 rest stack _ _]
    simp [List.cons_append]

/-- Simulation of the iterative loop by the recursive walk on a forest
of sibling subtrees, which consumes one pushed snapshot per subtree. -/
theorem loop_forest (g : DiGraph) (ch : Nat → List Nat) :
    ∀ (ts : List DomTree), DomTree.agreesF ch ts = true →
      ∀ (rest : List Nat) (stack : List VarMap) (vP : VarMap) (st : SSASt),
        renameLoop g ch (DomTree.preorderF ts ++ rest)
            (List.replicate ts.length vP ++ stack) st =
          ((renameLoop g ch rest stack (processForest g ts vP st).1).1,
           (renameLoop g ch rest stack (processForest g ts vP st).1).2.1,
           (processForest g ts vP st).2 ++
             (renameLoop g ch rest stack (processForest g ts vP st).1).2.2)
  | [] => by
    intro hag rest stack vP st
    simp [DomTree.preorderF, processForest]
  | t :: ts => by
    intro hag rest stack vP st
    simp only [DomTree.agreesF, Bool.and_eq_true] at hag
    rw [show DomTree.preorderF (t :: ts) ++ rest =
      t.preorder ++ (DomTree.preorderF ts ++ rest) by simp [DomTree.preorderF]]
    rw [show List.replicate (t :: ts).length vP ++ stack =
      vP :: (List.replicate ts.length vP ++ stack) by simp [List.replicate_succ]]
    rw [loop_tree g ch t hag.1 (DomTree.preorderF ts ++ rest)
      (List.replicate ts.length vP ++ stack) vP st]
    rw [loop_forest g ch ts hag.2 rest stack vP (processTree g t vP st).1]
    simp only [processForest, List.append_assoc]

end

/-- Root membership in the preorder. -/
theorem rootL_mem_preorder : ∀ t : DomTree, t.rootL ∈ t.preorder
  | .node _ _ => List.mem_cons_self _ _

/-- Roots of a forest lie in the preorder of the forest. -/
theorem rootsF_subset_preorderF :
    ∀ (ts : List DomTree) (c : Nat), c ∈ ts.map DomTree.rootL →
      c ∈ DomTree.preorderF ts := by
  intro ts
  induction ts with
  | nil => intro c hc; simp at hc
  | cons t ts ih =>
    intro c hc
    simp only [List.map_cons, List.mem_cons] at hc
    simp only [DomTree.preorderF, List.mem_append]
    rcases hc with hc | hc
    · left; rw [hc]; exact rootL_mem_preorder t
    · right; exact ih c hc

mutual

/-- Endpoints of a tree edge lie in the preorder. -/
theorem hasEdge_mem : ∀ (t : DomTree) (p c : Nat), DomTree.hasEdge t p c = true →
    p ∈ t.preorder ∧ c ∈ t.preorder
  | .node b ts => by
    intro p c h
    simp only [DomTree.hasEdge, Bool.or_eq_true, Bool.and_eq_true,
      decide_eq_true_eq] at h
    simp only [DomTree.preorder, List.mem_cons]
    rcases h with ⟨hb, hc⟩ | h
    · exact ⟨Or.inl hb.symm, Or.inr (rootsF_subset_preorderF ts c hc)⟩
    · have h2 := hasEdgeF_mem ts p c h
      exact ⟨Or.inr h2.1, Or.inr h2.2⟩

/-- Endpoints of a forest edge lie in the preorder of the forest. -/
theorem hasEdgeF_mem : ∀ (ts : List DomTree) (p c : Nat),
    DomTree.hasEdgeF ts p c = true →
    p ∈ DomTree.preorderF ts ∧ c ∈ DomTree.preorderF ts
  | [] => by intro p c h; simp [DomTree.hasEdgeF] at h
  | t :: ts => by
    intro p c h
    simp only [DomTree.hasEdgeF, Bool.or_eq_true] at h
    simp only [DomTree.preorderF, List.mem_append]
    rcases h with h | h
    · have h2 := hasEdge_mem t p c h
      exact ⟨Or.inl h2.1, Or.inl h2.2⟩
    · have h2 := hasEdgeF_mem ts p c h
      exact ⟨Or.inr h2.1, Or.inr h2.2⟩

end

mutual

/-- Keys of the trace of a subtree walk are its preorder. -/
theorem processTree_keys (g : DiGraph) : ∀ (t : DomTree) (vIn : VarMap) (st : SSASt),
    alistKeys (processTree g t vIn st).2 = t.preorder
  | .node b ts => by
    intro vIn st
    simp only [processTree, DomTree.preorder, alistKeys, List.map_cons]
    have h := processForest_keys g ts
      (renameBlockStep g { st with stackRhs := vIn } b).stackRhs
      (renameBlockStep g { st with stackRhs := vIn } b)
    simp only [alistKeys] at h
    rw [h]

/-- Keys of the trace of a forest walk are its preorder. -/
theorem processForest_keys (g : DiGraph) : ∀ (ts : List DomTree) (vP : VarMap) (st : SSASt),
    alistKeys (processForest g ts vP st).2 = DomTree.preorderF ts
  | [] => by intro vP st; rfl
  | t :: ts => by
    intro vP st
    simp only [processForest, DomTree.preorderF, alistKeys, List.map_append]
    have h1 := processTree_keys g t vP st
    have h2 := processForest_keys g ts vP (processTree g t vP st).1
    simp only [alistKeys] at h1 h2
    rw [h1, h2]

end

/-- Trace entry of the root of a subtree: it pops the incoming snapshot
and its recorded end state is the stack_rhs after its own processing. -/
theorem processTree_root (g : DiGraph) (t : DomTree) (vIn : VarMap) (st : SSASt) :
    alistGet (processTree g t vIn st).2 t.rootL =
      some (vIn, (renameBlockStep g { st with stackRhs := vIn } t.rootL).stackRhs) := by
  cases t with
  | node b ts => simp [processTree, alistGet, DomTree.rootL]

/-- Every subtree root of a forest pops exactly the snapshot the forest
was entered with. -/
theorem processForest_root (g : DiGraph) :
    ∀ (ts : List DomTree) (vP : VarMap) (st : SSASt) (c : Nat),
      (DomTree.preorderF ts).Nodup → c ∈ ts.map DomTree.rootL →
      ∃ vc, alistGet (processForest g ts vP st).2 c = some (vP, vc) := by
  intro ts
  induction ts with
  | nil => intro vP st c _ hc; simp at hc
  | cons t ts ih =>
    intro vP st c hnd hc
    have hnd2 := List.nodup_append.mp (by simpa [DomTree.preorderF] using hnd)
    simp only [List.map_cons, List.mem_cons] at hc
    simp only [processForest]
    rcases hc with hc | hc
    · refine ⟨(renameBlockStep g { st with stackRhs := vP } t.rootL).stackRhs, ?_⟩
      apply alistGet_append_left
      rw [hc]
      exact processTree_root g t vP st
    · have hcpre : c ∈ DomTree.preorderF ts := rootsF_subset_preorderF ts c hc
      have hcnot : c ∉ t.preorder := fun hmem => hnd2.2.2 hmem hcpre
      have hnone : alistGet (processTree g t vP st).2 c = none := by
        rw [alistGet_eq_none_iff, processTree_keys]
        exact hcnot
      rcases ih vP (processTree g t vP st).1 c hnd2.2.1 hc with ⟨vc, hvc⟩
      refine ⟨vc, ?_⟩
      rw [alistGet_append_right _ _ _ hnone]
      exact hvc

mutual

/-- Scope passing along a subtree edge: a dominator-tree child pops
exactly the stack_rhs its parent recorded at the end of the processing
of the parent. -/
theorem processTree_edge (g : DiGraph) :
    ∀ (t : DomTree) (p c : Nat), DomTree.hasEdge t p c = true →
      t.preorder.Nodup → ∀ (vIn : VarMap) (st : SSASt),
      ∃ vin2 vp vc,
        alistGet (processTree g t vIn st).2 p = some (vin2, vp) ∧
        alistGet (processTree g t vIn st).2 c = some (vp, vc)
  | .node b ts => by
    intro p c hedge hnd vIn st
    simp only [DomTree.hasEdge, Bool.or_eq_true, Bool.and_eq_true,
      decide_eq_true_eq] at hedge
    have hnd2 := List.nodup_cons.mp (by simpa [DomTree.preorder] using hnd)
    simp only [processTree]
    rcases hedge with ⟨hbp, hcroots⟩ | hF
    · have hcpre : c ∈ DomTree.preorderF ts := rootsF_subset_preorderF ts c hcroots
      have hcb : ¬ (b = c) := fun he => hnd2.1 (he ▸ hcpre)
      rcases processForest_root g ts
        (renameBlockStep g { st with stackRhs := vIn } b).stackRhs
        (renameBlockStep g { st with stackRhs := vIn } b) c hnd2.2 hcroots with ⟨vc, hvc⟩
      refine ⟨vIn, (renameBlockStep g { st with stackRhs := vIn } b).stackRhs, vc, ?_, ?_⟩
      · simp [alistGet, hbp]
      · simp only [alistGet, hcb, if_neg]
        exact hvc
    · have hmemF := hasEdgeF_mem ts p c hF
      have hpb : ¬ (b = p) := fun he => hnd2.1 (he ▸ hmemF.1)
      have hcb : ¬ (b = c) := fun he => hnd2.1 (he ▸ hmemF.2)
      rcases processForest_edge g ts p c hF hnd2.2
        (renameBlockStep g { st with stackRhs := vIn } b).stackRhs
        (renameBlockStep g { st with stackRhs := vIn } b) with ⟨vin2, vp, vc, hp, hc⟩
      refine ⟨vin2, vp, vc, ?_, ?_⟩
      · simp only [alistGet, hpb, if_neg]
        exact hp
      · simp only [alistGet, hcb, if_neg]
        exact hc

/-- Scope passing along a forest edge. -/
theorem processForest_edge (g : DiGraph) :
    ∀ (ts : List DomTree) (p c : Nat), DomTree.hasEdgeF ts p c = true →
      (DomTree.preorderF ts).Nodup → ∀ (vP : VarMap) (st : SSASt),
      ∃ vin2 vp vc,
        alistGet (processForest g ts vP st).2 p = some (vin2, vp) ∧
        alistGet (processForest g ts vP st).2 c = some (vp, vc)
  | [] => by intro p c h; simp [DomTree.hasEdgeF] at h
  | t :: ts => by
    intro p c hedge hnd vP st
    simp only [DomTree.hasEdgeF, Bool.or_eq_true] at hedge
    have hnd2 := List.nodup_append.mp (by simpa [DomTree.preorderF] using hnd)
    simp only [processForest]
    rcases hedge with h | h
    · rcases processTree_edge g t p c h hnd2.1 vP st with ⟨vin2, vp, vc, hp, hc⟩
      exact ⟨vin2, vp, vc, alistGet_append_left _ _ _ _ hp,
        alistGet_append_left _ _ _ _ hc⟩
    · have hmem := hasEdgeF_mem ts p c h
      have hpnone : alistGet (processTree g t vP st).2 p = none := by
        rw [alistGet_eq_none_iff, processTree_keys]
        exact fun hmem2 => hnd2.2.2 hmem2 hmem.1
      have hcnone : alistGet (processTree g t vP st).2 c = none := by
        rw [alistGet_eq_none_iff, processTree_keys]
        exact fun hmem2 => hnd2.2.2 hmem2 hmem.2
      rcases processForest_edge g ts p c h hnd2.2.1 vP (processTree g t vP st).1 with
        ⟨vin2, vp, vc, hp, hc⟩
      refine ⟨vin2, vp, vc, ?_, ?_⟩
      · rw [alistGet_append_right _ _ _ hpnone]; exact hp
      · rw [alistGet_append_right _ _ _ hcnone]; exact hc

end

/-- C7: during the dominator-tree renaming walk of _rename, every
dominator-tree child pops, as the snapshot it begins with, exactly the
stack_rhs its parent had at the end of the processing of the parent:
in the trace of the iterative loop the popped component of the child
equals the end component of the parent. -/
theorem c7_child_pops_parent_scope (g : DiGraph) (ch : Nat → List Nat)
    (t : DomTree) (st : SSASt) (p c : Nat)
    (hag : DomTree.agrees ch t = true)
    (hnd : t.preorder.Nodup)
    (hedge : DomTree.hasEdge t p c = true) :
    ∃ vin vp vc,
      alistGet (renameLoop g ch t.preorder [st.stackRhs] st).2.2 p = some (vin, vp) ∧
      alistGet (renameLoop g ch t.preorder [st.stackRhs] st).2.2 c = some (vp, vc) := by
  have hsim := loop_tree g ch t hag [] [] st.stackRhs st
  rw [List.append_nil] at hsim
  rw [hsim]
  simp only [renameLoop, List.append_nil]
  exact processTree_edge g t p c hedge hnd st.stackRhs st

/-- C7 witness: on the diamond dominator tree the child 3 of the head
pops the scope its parent 0 ended with. -/
theorem c7_witness :
    ∃ vin vp vc,
      alistGet (renameLoop gDia tDia.findChildren tDia.preorder
        [(initSt blocksEx).stackRhs] (initSt blocksEx)).2.2 0 = some (vin, vp) ∧
      alistGet (renameLoop gDia tDia.findChildren tDia.preorder
        [(initSt blocksEx).stackRhs] (initSt blocksEx)).2.2 3 = some (vp, vc) :=
  c7_child_pops_parent_scope gDia tDia.findChildren tDia (initSt blocksEx) 0 3
    (by decide) (by decide) (by decide)

/-- Install of a phi defines the entry of its own variable and block. -/
theorem phiGet_install_self (phis : List (Nat × List (Expr × Expr))) (n : Nat)
    (w rhs : Expr) : phiGet (phiInstall phis n w rhs) n w = some rhs := by
  cases h : alistGet phis n with
  | none => simp [phiInstall, phiGet, h, alistGet_set_self, alistGet]
  | some entries => simp [phiInstall, phiGet, h, alistGet_set_self]

/-- Install of a phi leaves the entries of every other block unchanged. -/
theorem phiGet_install_block_ne (phis : List (Nat × List (Expr × Expr))) (n : Nat)
    (w rhs : Expr) (n2 : Nat) (v : Expr) (h : n ≠ n2) :
    phiGet (phiInstall phis n w rhs) n2 v = phiGet phis n2 v := by
  cases h2 : alistGet phis n with
  | none => simp [phiInstall, phiGet, h2, alistGet_set_ne _ _ _ _ h]
  | some entries => simp [phiInstall, phiGet, h2, alistGet_set_ne _ _ _ _ h]

/-- Monotonicity of the filter length in the predicate. -/
theorem filter_len_mono (p q : Nat → Bool) (h : ∀ a, p a = true → q a = true) :
    ∀ U : List Nat, (U.filter p).length ≤ (U.filter q).length := by
  intro U
  induction U with
  | nil => exact Nat.le_refl 0
  | cons u U ih =>
    by_cases hp : p u = true
    · simp [List.filter_cons, hp, h u hp]
      exact ih
    · simp only [List.filter_cons, Bool.not_eq_true] at hp
      simp only [List.filter_cons, hp]
      by_cases hq : q u = true
      · simp only [hq, if_pos, if_neg, Bool.false_eq_true, List.length_cons]
        exact Nat.le_succ_of_le ih
      · simp only [Bool.not_eq_true] at hq
        simp only [hq, Bool.false_eq_true, if_neg]
        exact ih

/-- Marking a fresh universe element as seen strictly shrinks the
unseen part of the universe. -/
theorem filter_not_mem_snoc (l : List Nat) (n : Nat) :
    ∀ U : List Nat, n ∈ U → n ∉ l →
      (U.filter (fun u => decide (u ∉ l ++ [n]))).length + 1 ≤
        (U.filter (fun u => decide (u ∉ l))).length := by
  intro U
  induction U with
  | nil => intro hU; cases hU
  | cons u U ih =>
    intro hU hl
    by_cases hun : u = n
    · subst hun
      have h1 : (decide (u ∉ l ++ [u])) = false := by
        simp [List.mem_append]
      have h2 : (decide (u ∉ l)) = true := by simp [hl]
      simp only [List.filter_cons, h1, h2, Bool.false_eq_true, if_neg, if_pos,
        List.length_cons]
      have hmono := filter_len_mono (fun u2 => decide (u2 ∉ l ++ [u]))
        (fun u2 => decide (u2 ∉ l))
        (by
          intro a ha
          simp only [decide_eq_true_eq] at ha ⊢
          exact fun hmem => ha (List.mem_append_left _ hmem))
        U
      exact Nat.succ_le_succ hmono
    · have hUn : n ∈ U := by
        rcases List.mem_cons.mp hU with h | h
        · exact absurd h.symm hun
        · exact h
      have hiff : (u ∉ l ++ [n]) ↔ (u ∉ l) := by
        simp [List.mem_append, hun]
      by_cases hul : u ∈ l
      · have e1 : (decide (u ∉ l ++ [n])) = false := by
          simp [List.mem_append, hul]
        have e2 : (decide (u ∉ l)) = false := by simp [hul]
        simp only [List.filter_cons, e1, e2, Bool.false_eq_true, if_neg]
        exact ih hUn hl
      · have e1 : (decide (u ∉ l ++ [n])) = true := by
          simp [List.mem_append, hul, hun]
        have e2 : (decide (u ∉ l)) = true := by simp [hul]
        simp only [List.filter_cons, e1, e2, if_pos, List.length_cons]
        have := ih hUn hl
        omega

/-- Effect of one install-and-enqueue step on the worklist invariant:
the block joins done, pending blocks persist and seen blocks persist. -/
theorem placeStep_inv (DF : Nat → List Nat) (S : List Nat) (v : Expr)
    (phis0 : List (Nat × List (Expr × Expr))) (st : PSt) (n : Nat)
    (hinv : PlaceInv DF S v phis0 st) (hidf : InIDF DF S n) :
    PlaceInv DF S v phis0 (placeEnqueue n (placeInstall v n st)) ∧
    (placeEnqueue n (placeInstall v n st)).done = st.done ++ [n] ∧
    (∀ m ∈ st.todo, m ∈ (placeEnqueue n (placeInstall v n st)).todo) := by
  have hdone_idf : ∀ m ∈ st.done ++ [n], InIDF DF S m := by
    intro m hm
    rcases List.mem_append.mp hm with hm | hm
    · exact hinv.done_idf m hm
    · rw [List.mem_singleton.mp hm]; exact hidf
  have hphis : ∀ m, phiGet (phiInstall st.phis n v (genEmptyPhi v)) m v =
      if m ∈ st.done ++ [n] then some (genEmptyPhi v) else phiGet phis0 m v := by
    intro m
    by_cases hmn : m = n
    · subst hmn
      rw [phiGet_install_self]
      simp [List.mem_append]
    · rw [phiGet_install_block_ne _ _ _ _ _ _ (fun he => hmn he.symm)]
      have hmem : (m ∈ st.done ++ [n]) ↔ (m ∈ st.done) := by
        simp [List.mem_append, hmn]
      rw [hinv.phis_spec m]
      by_cases hmd : m ∈ st.done
      · rw [if_pos hmd, if_pos (hmem.mpr hmd)]
      · rw [if_neg hmd, if_neg (fun h => hmd (hmem.mp h))]
  by_cases hi : n ∈ st.intodo
  · have hred : placeEnqueue n (placeInstall v n st) = placeInstall v n st := by
      simp [placeEnqueue, placeInstall, hi]
    rw [hred]
    refine ⟨⟨hdone_idf, ?_, ?_, ?_, ?_, hphis⟩, rfl, fun m hm => hm⟩
    · exact fun m hm => hinv.todo_intodo m hm
    · intro m hm
      rcases hinv.intodo_sub m hm with h | h
      · exact Or.inl h
      · exact Or.inr (List.mem_append_left _ h)
    · exact hinv.s_intodo
    · intro m hm
      rcases List.mem_append.mp hm with hm | hm
      · exact hinv.done_intodo m hm
      · rw [List.mem_singleton.mp hm]; exact hi
  · have hred : placeEnqueue n (placeInstall v n st) =
        { st with
          phis := phiInstall st.phis n v (genEmptyPhi v)
          done := st.done ++ [n]
          intodo := st.intodo ++ [n]
          todo := st.todo ++ [n] } := by
      simp [placeEnqueue, placeInstall, hi]
    rw [hred]
    refine ⟨⟨hdone_idf, ?_, ?_, ?_, ?_, hphis⟩, rfl,
      fun m hm => List.mem_append_left _ hm⟩
    · intro m hm
      rcases List.mem_append.mp hm with hm | hm
      · exact List.mem_append_left _ (hinv.todo_intodo m hm)
      · exact List.mem_append_right _ hm
    · intro m hm
      rcases List.mem_append.mp hm with hm | hm
      · rcases hinv.intodo_sub m hm with h | h
        · exact Or.inl h
        · exact Or.inr (List.mem_append_left _ h)
      · exact Or.inr (List.mem_append_right _ hm)
    · exact fun m hm => List.mem_append_left _ (hinv.s_intodo m hm)
    · intro m hm
      rcases List.mem_append.mp hm with hm | hm
      · exact List.mem_append_left _ (hinv.done_intodo m hm)
      · exact List.mem_append_right _ hm

/-- Effect of one install-and-enqueue step on the closure bookkeeping. -/
theorem placeStep_clo (DF : Nat → List Nat) (b : Nat) (v : Expr) (st : PSt) (n : Nat)
    (hclo : PlaceClo DF [b] st) :
    PlaceClo DF [b] (placeEnqueue n (placeInstall v n st)) := by
  by_cases hi : n ∈ st.intodo
  · have hred : placeEnqueue n (placeInstall v n st) = placeInstall v n st := by
      simp [placeEnqueue, placeInstall, hi]
    rw [hred]
    intro b2 hb2
    rcases hclo b2 hb2 with h | h | h
    · exact Or.inl h
    · exact Or.inr (Or.inl h)
    · exact Or.inr (Or.inr (fun m hm => List.mem_append_left _ (h m hm)))
  · have hred : placeEnqueue n (placeInstall v n st) =
        { st with
          phis := phiInstall st.phis n v (genEmptyPhi v)
          done := st.done ++ [n]
          intodo := st.intodo ++ [n]
          todo := st.todo ++ [n] } := by
      simp [placeEnqueue, placeInstall, hi]
    rw [hred]
    intro b2 hb2
    rcases List.mem_append.mp hb2 with hb2 | hb2
    · rcases hclo b2 hb2 with h | h | h
      · exact Or.inl h
      · exact Or.inr (Or.inl (List.mem_append_left _ h))
      · exact Or.inr (Or.inr (fun m hm => List.mem_append_left _ (h m hm)))
    · exact Or.inr (Or.inl (List.mem_append_right _ hb2))

/-- Effect of one install-and-enqueue step on the termination measure. -/
theorem placeStep_measure (U : List Nat) (v : Expr) (st : PSt) (n : Nat)
    (hU : n ∈ U) :
    pMeasure U (placeEnqueue n (placeInstall v n st)) ≤ pMeasure U st := by
  by_cases hi : n ∈ st.intodo
  · have hred : placeEnqueue n (placeInstall v n st) = placeInstall v n st := by
      simp [placeEnqueue, placeInstall, hi]
    rw [hred]
    exact Nat.le_refl _
  · have hred : placeEnqueue n (placeInstall v n st) =
        { st with
          phis := phiInstall st.phis n v (genEmptyPhi v)
          done := st.done ++ [n]
          intodo := st.intodo ++ [n]
          todo := st.todo ++ [n] } := by
      simp [placeEnqueue, placeInstall, hi]
    rw [hred]
    show (st.todo ++ [n]).length +
        (U.filter (fun u => decide (u ∉ st.intodo ++ [n]))).length ≤ pMeasure U st
    rw [List.length_append, List.length_singleton]
    have hsnoc := filter_not_mem_snoc st.intodo n U hU hi
    unfold pMeasure
    omega

/-- Walk of one dominance frontier: the invariant and closure are
preserved, done grows, every frontier block ends done, and pending
blocks persist. -/
theorem placeFrontier_spec (DF : Nat → List Nat) (S : List Nat) (v : Expr)
    (phis0 : List (Nat × List (Expr × Expr))) (b : Nat)
    (hb : b ∈ S ∨ InIDF DF S b) :
    ∀ (ns : List Nat) (st : PSt), (∀ n ∈ ns, n ∈ DF b) →
      PlaceInv DF S v phis0 st → PlaceClo DF [b] st →
      PlaceInv DF S v phis0 (placeFrontier v ns st) ∧
      PlaceClo DF [b] (placeFrontier v ns st) ∧
      (∀ n ∈ st.done, n ∈ (placeFrontier v ns st).done) ∧
      (∀ n ∈ ns, n ∈ (placeFrontier v ns st).done) ∧
      (∀ n ∈ st.todo, n ∈ (placeFrontier v ns st).todo) := by
  intro ns
  induction ns with
  | nil =>
    intro st _ hinv hclo
    exact ⟨hinv, hclo, fun n h => h,
      fun n h => absurd h (List.not_mem_nil n), fun n h => h⟩
  | cons n rest ih =>
    intro st hsub hinv hclo
    by_cases hd : n ∈ st.done
    · rw [show placeFrontier v (n :: rest) st = placeFrontier v rest st by
        simp [placeFrontier, hd]]
      have hres := ih st (fun m hm => hsub m (List.mem_cons_of_mem _ hm)) hinv hclo
      refine ⟨hres.1, hres.2.1, hres.2.2.1, ?_, hres.2.2.2.2⟩
      intro m hm
      rcases List.mem_cons.mp hm with he | hm2
      · exact he ▸ hres.2.2.1 n hd
      · exact hres.2.2.2.1 m hm2
    · rw [show placeFrontier v (n :: rest) st =
          placeFrontier v rest (placeEnqueue n (placeInstall v n st)) by
        simp [placeFrontier, hd]]
      have hnDF : n ∈ DF b := hsub n (List.mem_cons_self _ _)
      have hnIdf : InIDF DF S n := by
        rcases hb with hb | hb
        · exact InIDF.base hb hnDF
        · exact InIDF.step hb hnDF
      have hstep := placeStep_inv DF S v phis0 st n hinv hnIdf
      have hcloS := placeStep_clo DF b v st n hclo
      have hres := ih (placeEnqueue n (placeInstall v n st))
        (fun m hm => hsub m (List.mem_cons_of_mem _ hm)) hstep.1 hcloS
      refine ⟨hres.1, hres.2.1, ?_, ?_, ?_⟩
      · intro m hm
        exact hres.2.2.1 m (hstep.2.1 ▸ List.mem_append_left _ hm)
      · intro m hm
        rcases List.mem_cons.mp hm with he | hm2
        · exact he ▸ hres.2.2.1 n
            (hstep.2.1 ▸ List.mem_append_right _ (List.mem_singleton.mpr rfl))
        · exact hres.2.2.2.1 m hm2
      · intro m hm
        exact hres.2.2.2.2 m (hstep.2.2 m hm)

/-- Walk of one dominance frontier never grows the measure. -/
theorem placeFrontier_measure (U : List Nat) (v : Expr) :
    ∀ (ns : List Nat) (st : PSt), (∀ n ∈ ns, n ∈ U) →
      pMeasure U (placeFrontier v ns st) ≤ pMeasure U st := by
  intro ns
  induction ns with
  | nil => intro st _; exact Nat.le_refl _
  | cons n rest ih =>
    intro st hsub
    by_cases hd : n ∈ st.done
    · rw [show placeFrontier v (n :: rest) st = placeFrontier v rest st by
        simp [placeFrontier, hd]]
      exact ih st (fun m hm => hsub m (List.mem_cons_of_mem _ hm))
    · rw [show placeFrontier v (n :: rest) st =
          placeFrontier v rest (placeEnqueue n (placeInstall v n st)) by
        simp [placeFrontier, hd]]
      exact Nat.le_trans
        (ih _ (fun m hm => hsub m (List.mem_cons_of_mem _ hm)))
        (placeStep_measure U v st n (hsub n (List.mem_cons_self _ _)))

/-- Main worklist loop run: with fuel at least the measure the loop
drains the worklist while preserving the invariant and the closure. -/
theorem placeLoop_spec (DF : Nat → List Nat) (S : List Nat) (v : Expr)
    (phis0 : List (Nat × List (Expr × Expr))) (U : List Nat)
    (hDF : ∀ b, ∀ n ∈ DF b, n ∈ U) :
    ∀ (fuel : Nat) (st : PSt), pMeasure U st ≤ fuel →
      PlaceInv DF S v phis0 st → PlaceClo DF [] st →
      (placeLoop DF v fuel st).todo = [] ∧
      PlaceInv DF S v phis0 (placeLoop DF v fuel st) ∧
      PlaceClo DF [] (placeLoop DF v fuel st) := by
  intro fuel
  induction fuel with
  | zero =>
    intro st hm hinv hclo
    have htodo : st.todo = [] := by
      have hlen : st.todo.length = 0 := by
        unfold pMeasure at hm
        omega
      exact List.eq_nil_of_length_eq_zero hlen
    exact ⟨htodo, hinv, hclo⟩
  | succ m ih =>
    intro st hm hinv hclo
    cases htodo : st.todo with
    | nil =>
      have hred : placeLoop DF v (m + 1) st = st := by
        simp [placeLoop, htodo]
      rw [hred]
      exact ⟨htodo, hinv, hclo⟩
    | cons bb rest =>
      simp only [placeLoop, htodo]
      have hbin : bb ∈ st.intodo :=
        hinv.todo_intodo bb (htodo ▸ List.mem_cons_self bb rest)
      have hb : bb ∈ S ∨ InIDF DF S bb := by
        rcases hinv.intodo_sub bb hbin with h | h
        · exact Or.inl h
        · exact Or.inr (hinv.done_idf bb h)
      have hinvR : PlaceInv DF S v phis0 { st with todo := rest } := by
        refine ⟨hinv.done_idf, ?_, hinv.intodo_sub, hinv.s_intodo,
          hinv.done_intodo, hinv.phis_spec⟩
        intro m2 hm2
        exact hinv.todo_intodo m2 (htodo ▸ List.mem_cons_of_mem _ hm2)
      have hcloR : PlaceClo DF [bb] { st with todo := rest } := by
        intro b2 hb2
        rcases hclo b2 hb2 with h | h | h
        · simp at h
        · rw [htodo] at h
          rcases List.mem_cons.mp h with h2 | h2
          · exact Or.inl (List.mem_singleton.mpr h2)
          · exact Or.inr (Or.inl h2)
        · exact Or.inr (Or.inr h)
      have hfr := placeFrontier_spec DF S v phis0 bb hb (DF bb)
        { st with todo := rest } (fun n hn => hn) hinvR hcloR
      have hcloF : PlaceClo DF []
          (placeFrontier v (DF bb) { st with todo := rest }) := by
        intro b2 hb2
        rcases hfr.2.1 b2 hb2 with h | h | h
        · refine Or.inr (Or.inr ?_)
          intro n hn
          exact hfr.2.2.2.1 n (List.mem_singleton.mp h ▸ hn)
        · exact Or.inr (Or.inl h)
        · exact Or.inr (Or.inr h)
      have hmF : pMeasure U (placeFrontier v (DF bb) { st with todo := rest }) ≤ m := by
        have h1 := placeFrontier_measure U v (DF bb) { st with todo := rest } (hDF bb)
        have h2 : pMeasure U { st with todo := rest } + 1 = pMeasure U st := by
          unfold pMeasure
          rw [htodo]
          simp only [List.length_cons]
          omega
        omega
      exact ih _ hmF hfr.1 hcloF

/-- Completeness of a closed done set: it swallows the whole iterated
dominance frontier of the starting set. -/
theorem idf_subset_done (DF : Nat → List Nat) (S : List Nat) (done : List Nat)
    (hclo : ∀ b2, (b2 ∈ S ∨ b2 ∈ done) → ∀ n ∈ DF b2, n ∈ done) :
    ∀ n, InIDF DF S n → n ∈ done := by
  intro n h
  induction h with
  | base hb hn => exact hclo _ (Or.inl hb) _ hn
  | step _ hn ih => exact hclo _ (Or.inr ih) _ hn

/-- C6: for a variable v with definition-block set S, the per-variable
worklist of _place_phi (pop a block, visit its dominance frontier, skip
done blocks, enqueue newly reached blocks) installs exactly one empty
phi for v at each block of the iterated dominance frontier of S: the
phi table maps (block, v) to the empty phi exactly on blocks of the
iterated dominance frontier. -/
theorem c6_place_phi_idf (df : List (Nat × List Nat)) (S U : List Nat) (v : Expr)
    (phis0 : List (Nat × List (Expr × Expr))) (fuel : Nat)
    (hU : ∀ e ∈ df, ∀ n ∈ e.2, n ∈ U)
    (hfuel : S.length + (U.filter (fun u => decide (u ∉ S))).length ≤ fuel)
    (hfresh : ∀ n, phiGet phis0 n v = none) :
    ∀ n, (phiGet (placePhiVar (dfFun df) fuel S phis0 v) n v =
        some (genEmptyPhi v) ↔ InIDF (dfFun df) S n) ∧
      (¬ InIDF (dfFun df) S n →
        phiGet (placePhiVar (dfFun df) fuel S phis0 v) n v = none) := by
  have hDF : ∀ b, ∀ n ∈ dfFun df b, n ∈ U := by
    intro b n hn
    unfold dfFun at hn
    cases h : alistGet df b with
    | none => rw [h] at hn; simp at hn
    | some l =>
      rw [h] at hn
      exact hU (b, l) (mem_of_alistGet df b l h) n hn
  have hinv0 : PlaceInv (dfFun df) S v phis0 ⟨S, [], S, phis0⟩ := by
    refine ⟨?_, ?_, ?_, ?_, ?_, ?_⟩
    · intro n hn; simp at hn
    · exact fun n hn => hn
    · exact fun n hn => Or.inl hn
    · exact fun n hn => hn
    · intro n hn; simp at hn
    · intro n
      have hd : ¬ (n ∈ ([] : List Nat)) := List.not_mem_nil n
      rw [if_neg hd]
  have hclo0 : PlaceClo (dfFun df) [] ⟨S, [], S, phis0⟩ :=
    fun b2 hb2 => Or.inr (Or.inl hb2)
  have hm0 : pMeasure U ⟨S, [], S, phis0⟩ ≤ fuel := hfuel
  have hrun := placeLoop_spec (dfFun df) S v phis0 U hDF fuel
    ⟨S, [], S, phis0⟩ hm0 hinv0 hclo0
  have hfin : placePhiVar (dfFun df) fuel S phis0 v =
      (placeLoop (dfFun df) v fuel ⟨S, [], S, phis0⟩).phis := rfl
  have hdone_iff : ∀ n,
      n ∈ (placeLoop (dfFun df) v fuel ⟨S, [], S, phis0⟩).done ↔
        InIDF (dfFun df) S n := by
    intro n
    constructor
    · exact hrun.2.1.done_idf n
    · intro h
      refine idf_subset_done (dfFun df) S _ ?_ n h
      intro b2 hb2 m hm
      have hb2in : b2 ∈ (placeLoop (dfFun df) v fuel ⟨S, [], S, phis0⟩).intodo := by
        rcases hb2 with h2 | h2
        · exact hrun.2.1.s_intodo b2 h2
        · exact hrun.2.1.done_intodo b2 h2
      rcases hrun.2.2 b2 hb2in with h3 | h3 | h3
      · simp at h3
      · rw [hrun.1] at h3; simp at h3
      · exact h3 m hm
  intro n
  have hspec := hrun.2.1.phis_spec n
  rw [hfin]
  constructor
  · constructor
    · intro hsome
      by_cases hd : n ∈ (placeLoop (dfFun df) v fuel ⟨S, [], S, phis0⟩).done
      · exact (hdone_iff n).mp hd
      · rw [if_neg hd, hfresh n] at hspec
        rw [hspec] at hsome
        exact Option.noConfusion hsome
    · intro hidf
      rw [hspec, if_pos ((hdone_iff n).mpr hidf)]
  · intro hnidf
    have hd : n ∉ (placeLoop (dfFun df) v fuel ⟨S, [], S, phis0⟩).done :=
      fun h => hnidf ((hdone_iff n).mp h)
    rw [hspec, if_neg hd, hfresh n]

/-- C6 witness: the frontier map of the example graph with starting set
0 and 1 places the phi for x exactly on the iterated dominance
frontier, at block 3. -/
theorem c6_witness :
    (phiGet (placePhiVar (dfFun (computeDF gEx 0)) 20 [0, 1] [] xV) 3 xV =
      some (genEmptyPhi xV) ↔ InIDF (dfFun (computeDF gEx 0)) [0, 1] 3) ∧
    (¬ InIDF (dfFun (computeDF gEx 0)) [0, 1] 2 →
      phiGet (placePhiVar (dfFun (computeDF gEx 0)) 20 [0, 1] [] xV) 2 xV = none) :=
  ⟨(c6_place_phi_idf (computeDF gEx 0) [0, 1] [0, 1, 2, 3, 4] xV [] 20
      (by decide) (by decide) (fun _ => rfl) 3).1,
   (c6_place_phi_idf (computeDF gEx 0) [0, 1] [0, 1, 2, 3, 4] xV [] 20
      (by decide) (by decide) (fun _ => rfl) 2).2⟩

/-- Keys after an update are old keys or the updated key. -/
theorem alistKeys_set_subset [DecidableEq α] (m : List (α × β)) (k : α) (v : β)
    (k2 : α) (h : k2 ∈ alistKeys (alistSet m k v)) : k2 ∈ alistKeys m ∨ k2 = k := by
  induction m with
  | nil =>
    simp [alistSet, alistKeys] at h
    exact Or.inr h
  | cons p rest ih =>
    by_cases hp : p.1 = k
    · rw [show alistSet (p :: rest) k v = (k, v) :: rest by simp [alistSet, hp]] at h
      simp only [alistKeys, List.map_cons, List.mem_cons] at h
      rcases h with h | h
      · exact Or.inr h
      · exact Or.inl (List.mem_cons_of_mem _ h)
    · rw [show alistSet (p :: rest) k v = p :: alistSet rest k v by simp [alistSet, hp]] at h
      simp only [alistKeys, List.map_cons, List.mem_cons] at h
      rcases h with h | h
      · exact Or.inl (List.mem_cons.mpr (Or.inl h))
      · rcases ih h with h2 | h2
        · exact Or.inl (List.mem_cons_of_mem _ h2)
        · exact Or.inr h2

/-- Key uniqueness is preserved by an update. -/
theorem alistSet_nodup [DecidableEq α] (m : List (α × β)) (k : α) (v : β)
    (h : (alistKeys m).Nodup) : (alistKeys (alistSet m k v)).Nodup := by
  induction m with
  | nil => simp [alistSet, alistKeys]
  | cons p rest ih =>
    simp only [alistKeys, List.map_cons, List.nodup_cons] at h
    by_cases hp : p.1 = k
    · rw [show alistSet (p :: rest) k v = (k, v) :: rest by simp [alistSet, hp]]
      simp only [alistKeys, List.map_cons, List.nodup_cons]
      exact ⟨hp ▸ h.1, h.2⟩
    · rw [show alistSet (p :: rest) k v = p :: alistSet rest k v by simp [alistSet, hp]]
      simp only [alistKeys, List.map_cons, List.nodup_cons]
      refine ⟨?_, ih h.2⟩
      intro hmem
      rcases alistKeys_set_subset rest k v p.1 hmem with h2 | h2
      · exact h.1 h2
      · exact hp h2

/-- Keys after a removal come from the old keys. -/
theorem alistRemove_keys_subset [DecidableEq α] (m : List (α × β)) (k k2 : α)
    (h : k2 ∈ alistKeys (alistRemove m k)) : k2 ∈ alistKeys m := by
  induction m with
  | nil => simp [alistRemove, alistKeys] at h
  | cons p rest ih =>
    by_cases hp : p.1 = k
    · rw [show alistRemove (p :: rest) k = rest by simp [alistRemove, hp]] at h
      exact List.mem_cons_of_mem _ h
    · rw [show alistRemove (p :: rest) k = p :: alistRemove rest k by
        simp [alistRemove, hp]] at h
      simp only [alistKeys, List.map_cons, List.mem_cons] at h
      rcases h with h | h
      · exact List.mem_cons.mpr (Or.inl h)
      · exact List.mem_cons_of_mem _ (ih h)

/-- Key uniqueness is preserved by a removal. -/
theorem alistRemove_nodup [DecidableEq α] (m : List (α × β)) (k : α)
    (h : (alistKeys m).Nodup) : (alistKeys (alistRemove m k)).Nodup := by
  induction m with
  | nil => simp [alistRemove, alistKeys]
  | cons p rest ih =>
    simp only [alistKeys, List.map_cons, List.nodup_cons] at h
    by_cases hp : p.1 = k
    · rw [show alistRemove (p :: rest) k = rest by simp [alistRemove, hp]]
      exact h.2
    · rw [show alistRemove (p :: rest) k = p :: alistRemove rest k by
        simp [alistRemove, hp]]
      simp only [alistKeys, List.map_cons, List.nodup_cons]
      exact ⟨fun hmem => h.1 (alistRemove_keys_subset rest k p.1 hmem), ih h.2⟩

/-- Preservation of a state predicate through a fold. -/
theorem foldl_preserve_prop {γ : Type _} (P : SSASt → Prop) (f : SSASt → γ → SSASt)
    (h : ∀ st a, P st → P (f st a)) :
    ∀ (l : List γ) (st : SSASt), P st → P (l.foldl f st) := by
  intro l
  induction l with
  | nil => intro st hp; exact hp
  | cons a l ih => intro st hp; exact ih _ (h st a hp)

/-- Transfer of the phi-table view along equal phi tables. -/
theorem phiok_of_phinodes_eq (st st2 : SSASt) (B m : Nat)
    (heq : st2.phinodes = st.phinodes) (h : PhiOk B m st) : PhiOk B m st2 := by
  unfold PhiOk
  rw [heq]
  exact h

/-- Renaming one phi key preserves the phi-table view of every block:
the payload multiset at the renamed block is untouched. -/
theorem renamePhiLhsOne_phiok (label : Nat) (st : SSASt) (dst : Expr) (B m : Nat)
    (hok : PhiOk B m st) : PhiOk B m (renamePhiLhsOne label st dst) := by
  cases hcur : alistGet ((alistGet st.phinodes label).getD []) dst with
  | none =>
    simp only [renamePhiLhsOne, hcur]
    exact hok
  | some rhs =>
    simp only [renamePhiLhsOne, hcur]
    have hq := (transformExpressionLhs_quiet st dst).2.2.2.2
    by_cases hlB : label = B
    · subst hlB
      refine ⟨?_, ?_, ?_⟩
      · simp only [hq, alistGet_set_self]
        rfl
      · simp only [hq, alistGet_set_self, Option.getD_some]
        exact alistSet_nodup _ _ _ (alistRemove_nodup _ _ hok.2.1)
      · simp only [hq, alistGet_set_self, Option.getD_some]
        intro p hp
        rcases mem_alistSet _ _ _ _ hp with h2 | h2
        · exact hok.2.2 p (mem_alistRemove _ _ _ h2)
        · rw [h2]
          exact hok.2.2 (dst, rhs) (mem_of_alistGet _ _ _ hcur)
    · have hget : alistGet (alistSet (transformExpressionLhs st dst).2.phinodes label
          (alistSet (alistRemove ((alistGet st.phinodes label).getD []) dst)
            (transformExpressionLhs st dst).1 rhs)) B = alistGet st.phinodes B := by
        rw [alistGet_set_ne _ _ _ _ hlB, hq]
      refine ⟨?_, ?_, ?_⟩
      · rw [show (({ (transformExpressionLhs st dst).2 with
            phinodes := alistSet (transformExpressionLhs st dst).2.phinodes label
              (alistSet (alistRemove ((alistGet st.phinodes label).getD []) dst)
                (transformExpressionLhs st dst).1 rhs) } : SSASt)).phinodes =
          alistSet (transformExpressionLhs st dst).2.phinodes label
            (alistSet (alistRemove ((alistGet st.phinodes label).getD []) dst)
              (transformExpressionLhs st dst).1 rhs) from rfl, hget]
        exact hok.1
      · rw [show (({ (transformExpressionLhs st dst).2 with
            phinodes := alistSet (transformExpressionLhs st dst).2.phinodes label
              (alistSet (alistRemove ((alistGet st.phinodes label).getD []) dst)
                (transformExpressionLhs st dst).1 rhs) } : SSASt)).phinodes =
          alistSet (transformExpressionLhs st dst).2.phinodes label
            (alistSet (alistRemove ((alistGet st.phinodes label).getD []) dst)
              (transformExpressionLhs st dst).1 rhs) from rfl, hget]
        exact hok.2.1
      · rw [show (({ (transformExpressionLhs st dst).2 with
            phinodes := alistSet (transformExpressionLhs st dst).2.phinodes label
              (alistSet (alistRemove ((alistGet st.phinodes label).getD []) dst)
                (transformExpressionLhs st dst).1 rhs) } : SSASt)).phinodes =
          alistSet (transformExpressionLhs st dst).2.phinodes label
            (alistSet (alistRemove ((alistGet st.phinodes label).getD []) dst)
              (transformExpressionLhs st dst).1 rhs) from rfl, hget]
        exact hok.2.2

/-- Renaming the phi keys of any block preserves the phi-table view. -/
theorem renamePhiLhs_phiok (st : SSASt) (label : Nat) (B m : Nat)
    (hok : PhiOk B m st) : PhiOk B m (renamePhiLhs st label) :=
  foldl_preserve_prop (PhiOk B m) (renamePhiLhsOne label)
    (fun st2 d h => renamePhiLhsOne_phiok label st2 d B m h) _ st hok

/-- Renaming the block body preserves the phi-table view. -/
theorem renameExpressions_phiok (st : SSASt) (label : Nat) (B m : Nat)
    (hok : PhiOk B m st) : PhiOk B m (renameExpressions st label) :=
  phiok_of_phinodes_eq st _ B m (renameExpressions_quiet st label).2.2 hok

/-- Operand count of a filled phi. -/
theorem opCount_fillPhi (args : List Expr) : opCount (fillPhi args) = args.length := rfl

/-- Transfer of the phi-table view along equal lookups at the block. -/
theorem phiok_of_get_eq (st st2 : SSASt) (B m : Nat)
    (heq : alistGet st2.phinodes B = alistGet st.phinodes B) (h : PhiOk B m st) :
    PhiOk B m st2 := by
  unfold PhiOk
  rw [heq]
  exact h


/-- Bumping a payload adds exactly one operand. -/
theorem opCount_phiBump (st : SSASt) (dst src : Expr) (m : Nat)
    (h : opCount src = m) : opCount (phiBump st dst src) = m + 1 := by
  cases src with
  | op sy args =>
    simp only [phiBump, opCount_fillPhi, List.length_cons]
    simp only [opCount] at h
    omega
  | id n s =>
    cases n with
    | base s2 =>
      by_cases hphi : s2 = "phi"
      · subst hphi
        simp only [phiBump, opCount_fillPhi, List.length_singleton]
        simp only [opCount] at h
        omega
      · rw [show phiBump st dst (Expr.id (.base s2) s) =
          fillPhi [transformExpressionRhs st (reverseVariable dst)] by
          simp [phiBump, hphi]]
        simp only [opCount] at h
        simp only [opCount_fillPhi, List.length_singleton]
        omega
    | ssa n2 idx =>
      simp only [opCount] at h
      simp only [phiBump, opCount_fillPhi, List.length_singleton]
      omega
  | int v2 s =>
    simp only [opCount] at h
    simp only [phiBump, opCount_fillPhi, List.length_singleton]
    omega
  | mem a s =>
    simp only [opCount] at h
    simp only [phiBump, opCount_fillPhi, List.length_singleton]
    omega

/-- One phi-fill pass over a key list: every listed key gains exactly
one operand, other keys and the key list itself stay unchanged. -/
theorem renamePhiRhs_go (B : Nat) (m : Nat) :
    ∀ (K : List Expr) (st : SSASt), K.Nodup →
      (∀ k ∈ K, ∃ val, alistGet ((alistGet st.phinodes B).getD []) k = some val ∧
        opCount val = m) →
      (∀ k, k ∉ K →
        alistGet ((alistGet (K.foldl (renamePhiRhsOne B) st).phinodes B).getD []) k =
          alistGet ((alistGet st.phinodes B).getD []) k) ∧
      (∀ k ∈ K, ∃ val,
        alistGet ((alistGet (K.foldl (renamePhiRhsOne B) st).phinodes B).getD []) k =
          some val ∧ opCount val = m + 1) ∧
      (alistKeys ((alistGet (K.foldl (renamePhiRhsOne B) st).phinodes B).getD []) =
        alistKeys ((alistGet st.phinodes B).getD [])) ∧
      ((alistGet st.phinodes B).isSome →
        (alistGet (K.foldl (renamePhiRhsOne B) st).phinodes B).isSome) := by
  intro K
  induction K with
  | nil =>
    intro st _ _
    exact ⟨fun k _ => rfl, fun k hk => absurd hk (List.not_mem_nil k),
      rfl, fun h => h⟩
  | cons k K2 ih =>
    intro st hnd hvals
    have hndt := List.nodup_cons.mp hnd
    rcases hvals k (List.mem_cons_self _ _) with ⟨src, hsrc, hcnt⟩
    have hred : renamePhiRhsOne B st k =
        { st with
          phinodes := alistSet st.phinodes B
            (alistSet ((alistGet st.phinodes B).getD []) k (phiBump st k src)) } := by
      simp only [renamePhiRhsOne, hsrc]
    have hkmem : k ∈ alistKeys ((alistGet st.phinodes B).getD []) :=
      (alistGet_isSome_iff _ _).mp (by rw [hsrc]; rfl)
    have hA : alistGet (renamePhiRhsOne B st k).phinodes B =
        some (alistSet ((alistGet st.phinodes B).getD []) k (phiBump st k src)) := by
      rw [hred]
      exact alistGet_set_self _ _ _
    have hvals2 : ∀ k2 ∈ K2, ∃ val,
        alistGet ((alistGet (renamePhiRhsOne B st k).phinodes B).getD []) k2 =
          some val ∧ opCount val = m := by
      intro k2 hk2
      rcases hvals k2 (List.mem_cons_of_mem _ hk2) with ⟨val, hval, hvc⟩
      refine ⟨val, ?_, hvc⟩
      rw [hA, Option.getD_some,
        alistGet_set_ne _ _ _ _ (fun he => hndt.1 (by rw [he]; exact hk2)), hval]
    have hres := ih (renamePhiRhsOne B st k) hndt.2 hvals2
    have hfold : (k :: K2).foldl (renamePhiRhsOne B) st =
        K2.foldl (renamePhiRhsOne B) (renamePhiRhsOne B st k) := rfl
    refine ⟨?_, ?_, ?_, ?_⟩
    · intro k2 hk2
      have hk2k : ¬ (k = k2) := fun he => hk2 (by rw [← he]; exact List.mem_cons_self _ _)
      have hk2K2 : k2 ∉ K2 := fun he => hk2 (List.mem_cons_of_mem _ he)
      rw [hfold, hres.1 k2 hk2K2, hA, Option.getD_some,
        alistGet_set_ne _ _ _ _ hk2k]
    · intro k2 hk2
      rcases List.mem_cons.mp hk2 with he | hk2m
      · subst he
        refine ⟨phiBump st k2 src, ?_, opCount_phiBump st k2 src m hcnt⟩
        rw [hfold, hres.1 k2 hndt.1, hA, Option.getD_some, alistGet_set_self]
      · rw [hfold]
        exact hres.2.1 k2 hk2m
    · rw [hfold, hres.2.2.1, hA, Option.getD_some, alistKeys_set_mem _ _ _ hkmem]
    · intro _
      rw [hfold]
      refine hres.2.2.2 ?_
      rw [hA]
      rfl

/-- Filling the phis of the block itself adds one operand to every
payload. -/
theorem renamePhiRhs_phiok_self (st : SSASt) (B m : Nat) (hok : PhiOk B m st) :
    PhiOk B (m + 1) (renamePhiRhs st B) := by
  have hvals : ∀ k ∈ alistKeys ((alistGet st.phinodes B).getD []), ∃ val,
      alistGet ((alistGet st.phinodes B).getD []) k = some val ∧ opCount val = m := by
    intro k hk
    have hsome := (alistGet_isSome_iff _ k).mpr hk
    cases hval : alistGet ((alistGet st.phinodes B).getD []) k with
    | none => rw [hval] at hsome; simp at hsome
    | some val =>
      exact ⟨val, rfl, hok.2.2 (k, val) (mem_of_alistGet _ _ _ hval)⟩
  have hgo := renamePhiRhs_go B m (alistKeys ((alistGet st.phinodes B).getD []))
    st hok.2.1 hvals
  show PhiOk B (m + 1)
    ((alistKeys ((alistGet st.phinodes B).getD [])).foldl (renamePhiRhsOne B) st)
  refine ⟨hgo.2.2.2 hok.1, ?_, ?_⟩
  · rw [hgo.2.2.1]
    exact hok.2.1
  · intro p hp
    have hpkey : p.1 ∈ alistKeys ((alistGet st.phinodes B).getD []) := by
      rw [← hgo.2.2.1]
      exact List.mem_map.mpr ⟨p, hp, rfl⟩
    rcases hgo.2.1 p.1 hpkey with ⟨val, hval, hvc⟩
    have hnd2 : (alistKeys ((alistGet
        ((alistKeys ((alistGet st.phinodes B).getD [])).foldl
          (renamePhiRhsOne B) st).phinodes B).getD [])).Nodup := by
      rw [hgo.2.2.1]
      exact hok.2.1
    have hget := alistGet_of_mem_nodup _ p.1 p.2 hnd2 hp
    have hsv : some p.2 = some val := by
      rw [← hget]
      exact hval
    rw [show p.2 = val from Option.some.inj hsv]
    exact hvc

/-- Filling the phis of a different block leaves the view unchanged. -/
theorem renamePhiRhs_phiok_ne (st : SSASt) (s B m : Nat) (hne : s ≠ B)
    (hok : PhiOk B m st) : PhiOk B m (renamePhiRhs st s) := by
  refine foldl_preserve_prop (PhiOk B m) (renamePhiRhsOne s) ?_ _ st hok
  intro st2 dst h
  cases h2 : alistGet ((alistGet st2.phinodes s).getD []) dst with
  | none =>
    simp only [renamePhiRhsOne, h2]
    exact h
  | some src =>
    refine phiok_of_get_eq st2 _ B m ?_ h
    simp only [renamePhiRhsOne, h2]
    exact alistGet_set_ne _ _ _ _ hne

/-- Filling the phis of a successor list adds one operand per
occurrence of the block among the successors. -/
theorem renamePhiRhs_foldl_count (B : Nat) :
    ∀ (ss : List Nat) (st : SSASt) (m : Nat), PhiOk B m st →
      PhiOk B (m + ss.count B) (ss.foldl renamePhiRhs st) := by
  intro ss
  induction ss with
  | nil =>
    intro st m hok
    simpa using hok
  | cons s ss ih =>
    intro st m hok
    rw [List.foldl_cons]
    by_cases hs : s = B
    · subst hs
      have h1 := renamePhiRhs_phiok_self st s m hok
      have h2 := ih (renamePhiRhs st s) (m + 1) h1
      have hcnt : (s :: ss).count s = ss.count s + 1 := by
        simp [List.count_cons]
      rw [hcnt, show m + (ss.count s + 1) = m + 1 + ss.count s by omega]
      exact h2
    · have h1 := renamePhiRhs_phiok_ne st s B m hs hok
      have h2 := ih (renamePhiRhs st s) m h1
      have hcnt : (s :: ss).count B = ss.count B := by
        simp [List.count_cons, hs]
      rw [hcnt]
      exact h2

/-- Processing one walked block adds one operand per edge from the
block into B. -/
theorem renameBlockStep_phiok (g : DiGraph) (st : SSASt) (b B m : Nat)
    (hok : PhiOk B m st) :
    PhiOk B (m + (g.succs b).count B) (renameBlockStep g st b) := by
  simp only [renameBlockStep]
  refine renamePhiRhs_foldl_count B (g.succs b) _ m ?_
  refine renameExpressions_phiok _ b B m ?_
  exact renamePhiLhs_phiok _ b B m hok

mutual

/-- Operand counting over a subtree walk. -/
theorem processTree_phiok (g : DiGraph) (B : Nat) :
    ∀ (t : DomTree) (vIn : VarMap) (st : SSASt) (m : Nat), PhiOk B m st →
      PhiOk B (m + walkEdges g t.preorder B) (processTree g t vIn st).1
  | .node b ts => by
    intro vIn st m hok
    simp only [processTree]
    have hok2 : PhiOk B m { st with stackRhs := vIn } :=
      phiok_of_phinodes_eq st _ B m rfl hok
    have h1 := renameBlockStep_phiok g { st with stackRhs := vIn } b B m hok2
    have h2 := processForest_phiok g B ts
      (renameBlockStep g { st with stackRhs := vIn } b).stackRhs
      (renameBlockStep g { st with stackRhs := vIn } b)
      (m + (g.succs b).count B) h1
    have hsum : m + walkEdges g (DomTree.node b ts).preorder B =
        m + (g.succs b).count B + walkEdges g (DomTree.preorderF ts) B := by
      simp only [walkEdges, DomTree.preorder, List.map_cons, List.sum_cons]
      omega
    rw [hsum]
    exact h2

/-- Operand counting over a forest walk. -/
theorem processForest_phiok (g : DiGraph) (B : Nat) :
    ∀ (ts : List DomTree) (vP : VarMap) (st : SSASt) (m : Nat), PhiOk B m st →
      PhiOk B (m + walkEdges g (DomTree.preorderF ts) B) (processForest g ts vP st).1
  | [] => by
    intro vP st m hok
    simp only [processForest, walkEdges, DomTree.preorderF, List.map_nil,
      List.sum_nil]
    simpa using hok
  | t :: ts => by
    intro vP st m hok
    simp only [processForest]
    have h1 := processTree_phiok g B t vP st m hok
    have h2 := processForest_phiok g B ts vP (processTree g t vP st).1
      (m + walkEdges g t.preorder B) h1
    have hsum : m + walkEdges g (DomTree.preorderF (t :: ts)) B =
        m + walkEdges g t.preorder B + walkEdges g (DomTree.preorderF ts) B := by
      simp only [walkEdges, DomTree.preorderF, List.map_append, List.sum_append]
      omega
    rw [hsum]
    exact h2

end

/-- Sum over a list of a pointwise increment at one value. -/
theorem sum_map_add_count (W : List Nat) (f f2 : Nat → Nat) (x : Nat)
    (h : ∀ b, f2 b = f b + (if b = x then 1 else 0)) :
    (W.map f2).sum = (W.map f).sum + W.count x := by
  induction W with
  | nil => simp
  | cons w W ih =>
    rw [List.map_cons, List.sum_cons, h w, List.map_cons, List.sum_cons, ih,
      List.count_cons]
    by_cases hw : w = x
    · simp only [hw, if_pos, beq_self_eq_true]
      omega
    · have hb : (w == x) = false := by
        simp [hw]
      simp only [hw, if_neg, hb, Bool.false_eq_true]
      omega

/-- Count of one element in a duplicate-free list that contains it. -/
theorem nodup_count_eq_one (W : List Nat) (x : Nat) (hnd : W.Nodup)
    (hmem : x ∈ W) : W.count x = 1 := by
  induction W with
  | nil => cases hmem
  | cons w W ih =>
    have h2 := List.nodup_cons.mp hnd
    rcases List.mem_cons.mp hmem with he | hm
    · rw [List.count_cons, ← he, List.count_eq_zero_of_not_mem (he ▸ h2.1)]
      simp
    · have hwx : ¬ (w = x) := fun he2 => h2.1 (he2 ▸ hm)
      rw [List.count_cons, ih h2.2 hm]
      simp [hwx]

/-- Successor count of one block after adding one edge. -/
theorem succs_count_cons (B : Nat) (e : Nat × Nat) (E : List (Nat × Nat)) (b : Nat) :
    (((e :: E).filter (fun e2 => e2.1 == b)).map Prod.snd).count B =
      ((E.filter (fun e2 => e2.1 == b)).map Prod.snd).count B +
        (if b = e.1 ∧ e.2 = B then 1 else 0) := by
  by_cases h1 : e.1 = b
  · rw [show (e :: E).filter (fun e2 => e2.1 == b) =
        e :: E.filter (fun e2 => e2.1 == b) by simp [List.filter_cons, h1]]
    rw [List.map_cons, List.count_cons]
    by_cases h2 : e.2 = B
    · simp [h1, h2]
    · simp [h1, h2]
  · rw [show (e :: E).filter (fun e2 => e2.1 == b) =
        E.filter (fun e2 => e2.1 == b) by simp [List.filter_cons, h1]]
    have hno : ¬ (b = e.1 ∧ e.2 = B) := fun hc => h1 hc.1.symm
    simp [hno]

/-- Edge counting: when every source of an edge into B is listed once,
the per-source successor counts sum to the in-edge count of B. -/
theorem edges_count_sum (B : Nat) :
    ∀ (E : List (Nat × Nat)) (W : List Nat), W.Nodup →
      (∀ e ∈ E, e.2 = B → e.1 ∈ W) →
      (W.map (fun b => ((E.filter (fun e => e.1 == b)).map Prod.snd).count B)).sum =
        (E.filter (fun e => e.2 == B)).length := by
  intro E
  induction E with
  | nil =>
    intro W _ _
    simp
  | cons e E ih =>
    intro W hnd hpred
    have hpredE : ∀ e2 ∈ E, e2.2 = B → e2.1 ∈ W :=
      fun e2 he2 => hpred e2 (List.mem_cons_of_mem _ he2)
    by_cases hB : e.2 = B
    · have hsum := sum_map_add_count W
        (fun b => ((E.filter (fun e2 => e2.1 == b)).map Prod.snd).count B)
        (fun b => (((e :: E).filter (fun e2 => e2.1 == b)).map Prod.snd).count B)
        e.1
        (by
          intro b
          simp only [succs_count_cons B e E b]
          by_cases hb : b = e.1
          · simp [hb, hB]
          · simp [hb])
      rw [hsum, ih W hnd hpredE,
        nodup_count_eq_one W e.1 hnd (hpred e (List.mem_cons_self _ _) hB),
        show (e :: E).filter (fun e2 => e2.2 == B) =
          e :: E.filter (fun e2 => e2.2 == B) by simp [List.filter_cons, hB]]
      simp
    · have hfe : (fun b => (((e :: E).filter (fun e2 => e2.1 == b)).map Prod.snd).count B) =
          (fun b => ((E.filter (fun e2 => e2.1 == b)).map Prod.snd).count B) := by
        funext b
        simp only [succs_count_cons B e E b]
        simp [hB]
      rw [hfe, ih W hnd hpredE,
        show (e :: E).filter (fun e2 => e2.2 == B) =
          E.filter (fun e2 => e2.2 == B) by simp [List.filter_cons, hB]]

/-- Edge sum over a duplicate-free walk covering all predecessors of B
equals the in-edge count of B. -/
theorem walkEdges_eq_indeg (g : DiGraph) (W : List Nat) (B : Nat)
    (hnd : W.Nodup) (hpred : ∀ e ∈ g.edges, e.2 = B → e.1 ∈ W) :
    walkEdges g W B = g.indeg B :=
  edges_count_sum B g.edges W hnd hpred

/-- C5 (corrected): after the dominator-tree renaming walk, every phi
payload at a block B has operand count equal to the number of CFG
edges into B whose source lies on the walk (one operand appended when
that predecessor is processed); when every predecessor of B is walked,
that is, reachable from the head, the count equals the in-edge count
of B. -/
theorem c5_phi_arity (g : DiGraph) (ch : Nat → List Nat) (t : DomTree)
    (st : SSASt) (B : Nat)
    (hag : DomTree.agrees ch t = true)
    (hnd : t.preorder.Nodup)
    (hok : PhiOk B 0 st)
    (hpred : ∀ e ∈ g.edges, e.2 = B → e.1 ∈ t.preorder) :
    PhiOk B (g.indeg B) (renameLoop g ch t.preorder [st.stackRhs] st).1 := by
  have hsim := loop_tree g ch t hag [] [] st.stackRhs st
  rw [List.append_nil] at hsim
  rw [hsim]
  show PhiOk B (g.indeg B) (processTree g t st.stackRhs st).1
  have h1 := processTree_phiok g B t st.stackRhs st 0 hok
  rw [Nat.zero_add, walkEdges_eq_indeg g t.preorder B hnd hpred] at h1
  exact h1

/-- C5 counterexample: in the example CFG the join block 3 has three
in-edges, one of them from the block 4 that is unreachable from the
head; after the full transform its phi carries only two operands, one
per reachable predecessor, so the operand count differs from the
in-edge count.  The first two conjuncts certify that the supplied tree
is the dominator tree of the graph and that the child function used by
the walk agrees with it. -/
theorem c5_counterexample :
    isDomTreeB gEx 0 tEx = true ∧
    DomTree.agrees tEx.findChildren tEx = true ∧
    ((alistGet (ssaDigraphTransform gEx 0 [irdstV] tEx 20 (initSt blocksEx)).phinodes
        3).getD []).map (fun p => opCount p.2) = [2] ∧
    gEx.indeg 3 = 3 ∧
    ((alistGet (ssaDigraphTransform gEx 0 [irdstV] tEx 20 (initSt blocksEx)).phinodes
        3).getD []).map (fun p => opCount p.2) ≠ [gEx.indeg 3] := by
  refine ⟨by decide, by decide, rfl, rfl, by decide⟩

/-- C5 witness: on the fully reachable diamond, starting from the state
produced by defs initialization and phi placement, the walk leaves the
phi at the join with exactly two operands, the in-edge count. -/
theorem c5_witness :
    PhiOk 3 (gDia.indeg 3)
      (renameLoop gDia tDia.findChildren tDia.preorder
        [(placePhi (dfFun (computeDF gDia 0)) 20
          (initVariableDefs [irdstV] (walkDFF gDia 0) (initSt blocksEx))).stackRhs]
        (placePhi (dfFun (computeDF gDia 0)) 20
          (initVariableDefs [irdstV] (walkDFF gDia 0) (initSt blocksEx)))).1 :=
  c5_phi_arity gDia tDia.findChildren tDia
    (placePhi (dfFun (computeDF gDia 0)) 20
      (initVariableDefs [irdstV] (walkDFF gDia 0) (initSt blocksEx))) 3
    (by decide) (by decide)
    (by
      refine ⟨by decide, by decide, ?_⟩
      decide)
    (by decide)
